import Mathlib

/-!
# Verification of the CloudWatch OTLP tag-enricher (Firehose transform)

Shallow embedding of the enrichment pipeline of `main.go`:
wire codec (`rawDataIntoRequests` / `requestsIntoRawData`), resource tag cache
(`getOrCacheResources`), descriptor extraction
(`buildCloudWatchMetricFromKeyValues`), label construction
(`buildYACELabelsKeyValue`), statistic expansion (`quantileToStatistic`,
`summaryToGauges`), static-label parsing (`parseStaticLabels`) and the
orchestrator (`enhanceRequests`).

Modelling conventions:
* Go `float64` values are modelled as exact rationals (`ℚ`).
* Go `uint64` counters and timestamps are modelled as `ℕ`.
* Nil-able pointers are modelled as `Option`.
* Functions of external libraries that the repository calls
  (`promutil.PromStringTag`, `promutil.BuildMetricName`,
  `model.TaggedResource.MetricTags`, the tagging client, the
  max-dimension associator, `proto.Marshal` / `proto.Unmarshal`) are taken
  as explicit function parameters of the embedded definitions, so every
  theorem quantifies over their behaviour (or fixes a concrete instance in
  a witness).
* Go's `map` iteration (for static labels) is modelled by an association
  list traversed in order; the code does not rely on any particular order.
-/

namespace CWEnrich

/-- OTLP 1.0 `AnyValue`, restricted to the variants the program reads:
string values and kvlist values.  `noneV` models a nil `Value` pointer /
any other variant (whose `GetStringValue` is `""` and `GetKvlistValue`
is nil). -/
inductive AnyValue where
  | strV (s : String)
  | kvlistV (kvs : List (String × AnyValue))
  | noneV

/-- `GetStringValue`: the string payload, `""` for any other variant. -/
def AnyValue.getStringValue : AnyValue → String
  | .strV s => s
  | _ => ""

/-- `GetKvlistValue`: the kvlist payload, `none` (Go nil) otherwise. -/
def AnyValue.getKvlistValue : AnyValue → Option (List (String × AnyValue))
  | .kvlistV kvs => some kvs
  | _ => none

/-- OTLP `KeyValue` attribute, as a (key, value) pair. -/
abbrev KeyValue := String × AnyValue

/-- `attrValue` (main.go): the string value for `key` in the attribute
list, taking the first matching key, `""` when absent or non-string. -/
def attrValue (attrs : List KeyValue) (key : String) : String :=
  match attrs with
  | [] => ""
  | (k, v) :: rest => if k = key then v.getStringValue else attrValue rest key

/-- `model.Dimension` (YACE model). -/
structure Dimension where
  Name : String
  Value : String
deriving DecidableEq

/-- `model.Metric` (YACE model): the CloudWatch metric descriptor. -/
structure CWMetric where
  MetricName : String
  Namespace : String
  Dimensions : List Dimension
deriving DecidableEq

/-- `model.Tag` (YACE model). -/
structure Tag where
  Key : String
  Value : String
deriving DecidableEq

/-- `model.TaggedResource` (YACE model), the fields the program reads. -/
structure TaggedResource where
  ARN : String
  Namespace : String
  Region : String
  Tags : List Tag
deriving DecidableEq

/-- `buildCloudWatchMetricFromKeyValues` (main.go): scan the data point's
attributes for `MetricName`, `Namespace` and `Dimensions` (a kvlist);
everything else is ignored.  A nil value is skipped; dimension entries
with nil values are skipped. -/
def buildCloudWatchMetricFromKeyValues (attrs : List KeyValue) : CWMetric :=
  attrs.foldl
    (fun cwm kva =>
      match kva with
      | (_, .noneV) => cwm
      | (k, v) =>
        if k = "MetricName" then { cwm with MetricName := v.getStringValue }
        else if k = "Namespace" then { cwm with Namespace := v.getStringValue }
        else if k = "Dimensions" then
          match v.getKvlistValue with
          | some kvs =>
              { cwm with Dimensions := cwm.Dimensions ++
                  kvs.filterMap (fun dkv =>
                    match dkv with
                    | (_, .noneV) => none
                    | (dk, dv) => some ⟨dk, dv.getStringValue⟩) }
          | none => cwm
        else cwm)
    ⟨"", "", []⟩

/-! ## Statistic expansion -/

/-- Round to the nearest integer, ties to even — the rounding used by Go's
`fmt.Sprintf("%.1f", ·)` (applied to the value scaled by 10). -/
def roundHalfEven (x : ℚ) : ℤ :=
  let f := ⌊x⌋
  let r := x - f
  if r < 1/2 then f
  else if 1/2 < r then f + 1
  else if f % 2 = 0 then f else f + 1

/-- `fmt.Sprintf("%.1f", x)` followed by `strings.ReplaceAll(·, ".", "_")`:
the value rounded to one decimal digit, printed with `_` as the decimal
separator. -/
def fmtPct1 (x : ℚ) : String :=
  let n := roundHalfEven (x * 10)
  let s := toString (n.natAbs / 10) ++ "_" ++ toString (n.natAbs % 10)
  if n < 0 then "-" ++ s else s

/-- `quantileToStatistic` (main.go): map a quantile to a YACE statistic
name.  `0.0 → Minimum`, `1.0 → Maximum`, otherwise `quantile*100` printed
as `p<N>` when integral (`fmt.Sprintf("p%.0f", pct)`) and with one decimal
digit and `_` otherwise. -/
def quantileToStatistic (q : ℚ) : String :=
  if q = 0 then "Minimum"
  else if q = 1 then "Maximum"
  else
    let pct := q * 100
    if pct.den = 1 then "p" ++ toString pct.num
    else "p" ++ fmtPct1 pct

/-- OTLP `SummaryDataPoint` (the fields the program reads).  Quantile
values are (quantile, value) pairs. -/
structure SummaryDataPoint where
  Attributes : List KeyValue
  StartTimeUnixNano : ℕ
  TimeUnixNano : ℕ
  Count : ℕ
  Sum : ℚ
  QuantileValues : List (ℚ × ℚ)

/-- OTLP `NumberDataPoint` with an `AsDouble` value. -/
structure NumberDataPoint where
  Attributes : List KeyValue
  StartTimeUnixNano : ℕ
  TimeUnixNano : ℕ
  Value : ℚ

/-- The `Data` oneof of an OTLP `Metric`, restricted to the variants the
program distinguishes: `Summary`, `Gauge`, and everything else (carrying
an opaque tag so that pass-through preservation is observable). -/
inductive MetricData where
  | summary (dps : List SummaryDataPoint)
  | gauge (dps : List NumberDataPoint)
  | otherData (tag : ℕ)

/-- OTLP `Metric`. -/
structure OtlpMetric where
  Name : String
  Data : MetricData

/-- `newGauge` (main.go): a Gauge metric with a single data point. -/
def newGauge (name : String) (value : ℚ) (timestampNano startTimeNano : ℕ)
    (attrs : List KeyValue) : OtlpMetric :=
  { Name := name,
    Data := .gauge [{ Attributes := attrs,
                      StartTimeUnixNano := startTimeNano,
                      TimeUnixNano := timestampNano,
                      Value := value }] }

/-- `summaryToGauges` (main.go): convert one Summary data point into gauges
for the enabled statistics.  `buildMetricName` stands for the external
`promutil.BuildMetricName`; `enabledStats` models the Go
`map[string]bool` lookup (absent key = `false`). -/
def summaryToGauges (buildMetricName : String → String → String → String)
    (cwm : CWMetric) (dp : SummaryDataPoint) (attrs : List KeyValue)
    (enabledStats : String → Bool) : List OtlpMetric :=
  let ts := dp.TimeUnixNano
  let startTs := dp.StartTimeUnixNano
  let count := dp.Count
  let sum := dp.Sum
  let gauges : List OtlpMetric := []
  let gauges := if enabledStats "SampleCount" then
      gauges ++ [newGauge (buildMetricName cwm.Namespace cwm.MetricName "SampleCount")
        (count : ℚ) ts startTs attrs] else gauges
  let gauges := if enabledStats "Sum" then
      gauges ++ [newGauge (buildMetricName cwm.Namespace cwm.MetricName "Sum")
        sum ts startTs attrs] else gauges
  let gauges := if enabledStats "Average" ∧ 0 < count then
      gauges ++ [newGauge (buildMetricName cwm.Namespace cwm.MetricName "Average")
        (sum / (count : ℚ)) ts startTs attrs] else gauges
  dp.QuantileValues.foldl
    (fun gs qv =>
      let stat := quantileToStatistic qv.1
      if enabledStats stat then
        gs ++ [newGauge (buildMetricName cwm.Namespace cwm.MetricName stat)
          qv.2 ts startTs attrs]
      else gs)
    gauges

/-! ## Label construction -/

/-- The `strVal` helper of `buildYACELabelsKeyValue`. -/
def strVal (s : String) : AnyValue := .strV s

/-- `buildYACELabelsKeyValue` (main.go): build the YACE label set
`region, account_id, namespace, name, dimension_*, tag_*, custom_tag_*`.

External dependencies taken as parameters:
* `promStringTag` — `promutil.PromStringTag`; `none` models `ok = false`
  (invalid label name), `some t` the normalized name;
* `metricTags` — `model.TaggedResource.MetricTags`, the tag list
  restricted by the exported-tag allow-list.

`r : Option TaggedResource` models the possibly-nil matched resource;
`staticLabels` is the static-label map as an association list. -/
def buildYACELabelsKeyValue
    (promStringTag : String → Bool → Option String)
    (metricTags : TaggedResource → List String → List Tag)
    (cwm : CWMetric) (r : Option TaggedResource) (skip : Bool)
    (staticLabels : List (String × String)) (defaultLabels : Bool)
    (labelsSnakeCase : Bool) (exportedTags : List String)
    (region : String) (accountID : String) : List KeyValue :=
  let out : List KeyValue := []
  let out := if region ≠ "" then out ++ [("region", strVal region)] else out
  let out := if accountID ≠ "" then out ++ [("account_id", strVal accountID)] else out
  let out := if cwm.Namespace ≠ "" then out ++ [("namespace", strVal cwm.Namespace)] else out
  let nameVal := match r with
    | some res => if skip then "global" else res.ARN
    | none => "global"
  let out := out ++ [("name", strVal nameVal)]
  let out := cwm.Dimensions.foldl
    (fun acc dim =>
      match promStringTag dim.Name labelsSnakeCase with
      | none => acc
      | some promTag => acc ++ [("dimension_" ++ promTag, strVal dim.Value)])
    out
  let out := match r with
    | some res =>
      if skip then out
      else
        let tagsToExport := if 0 < exportedTags.length then metricTags res exportedTags else res.Tags
        tagsToExport.foldl
          (fun acc tag =>
            match promStringTag tag.Key labelsSnakeCase with
            | none => acc
            | some promTag => acc ++ [("tag_" ++ promTag, strVal tag.Value)])
          out
    | none => out
  if defaultLabels ∨ (r.isSome ∧ skip = false) then
    staticLabels.foldl
      (fun acc kv =>
        match promStringTag kv.1 labelsSnakeCase with
        | none => acc
        | some promTag => acc ++ [("custom_tag_" ++ promTag, strVal kv.2)])
      out
  else out

/-! ## Resource tag cache (`getOrCacheResources`)

The durable cache file for a namespace is modelled by its modification
time and its content; the content of a persisted entry is either the
JSON-marshalled resource list (which unmarshals back to itself) or
corrupt bytes (on which `json.Unmarshal` fails).  `fetchRes` is the
outcome of `retrieveResources` for this namespace (a
`tagging.ErrExpectedToFindResources` outcome has already been mapped to
`.ok` with an empty list there, mirroring the Go code). -/

/-- Content of a persisted cache entry. -/
inductive CacheContent where
  | valid (rs : List TaggedResource)
  | corrupt
deriving DecidableEq

/-- A persisted cache file: modification time and content. -/
structure CacheFile where
  modTime : ℤ
  content : CacheContent
deriving DecidableEq

/-- Result of one `getOrCacheResources` call: the returned value or error,
the persisted file afterwards, and whether a fetch (`retrieveResources`)
was performed. -/
structure CacheResult where
  resources : Except String (List TaggedResource)
  file : Option CacheFile
  fetched : Bool

/-- `getOrCacheResources` (main.go) for one namespace.  `file` is the
persisted entry (`none` when the file does not exist), `now` the current
time, `cacheExpiration` the TTL.  The entry is expired when
`modTime + cacheExpiration < now` (`fs.ModTime().Add(cacheExpiration).Before(time.Now())`).
On refresh the fetched resources are marshalled and written, setting the
modification time to `now`. -/
def getOrCacheResources (cacheEnabled : Bool) (cacheExpiration : ℤ) (now : ℤ)
    (file : Option CacheFile) (fetchRes : Except String (List TaggedResource)) :
    CacheResult :=
  if cacheEnabled = false then ⟨fetchRes, file, true⟩
  else
    match file with
    | none =>
      match fetchRes with
      | .error e => ⟨.error e, none, true⟩
      | .ok rs => ⟨.ok rs, some ⟨now, .valid rs⟩, true⟩
    | some f =>
      let isExpired := f.modTime + cacheExpiration < now
      if isExpired then
        match fetchRes with
        | .error e => ⟨.error e, some f, true⟩
        | .ok rs => ⟨.ok rs, some ⟨now, .valid rs⟩, true⟩
      else
        match f.content with
        | .valid rs => ⟨.ok rs, some f, false⟩
        | .corrupt => ⟨.error "json unmarshal", some f, false⟩

/-! ## Static-label parsing (`parseStaticLabels`)

`encoding/json`'s `Unmarshal` into `[]string` is modelled by a small JSON
parser covering the relevant fragment: optional whitespace, either `null`
(which leaves the slice nil without error) or an array of string
literals, and nothing but whitespace afterwards.  String escapes are
modelled for the simple escapes; the `\u` escape is not modelled (no
claim exercises it). -/

/-- JSON whitespace. -/
def isJsonWs (c : Char) : Bool := c = ' ' ∨ c = '\t' ∨ c = '\n' ∨ c = '\r'

/-- Skip JSON whitespace. -/
def skipWs (cs : List Char) : List Char := cs.dropWhile isJsonWs

/-- Parse the body of a JSON string literal (after the opening quote),
returning the decoded characters and the remaining input. -/
def parseStringBody (acc : List Char) : List Char → Option (String × List Char)
  | [] => none
  | c :: rest =>
    if c = '"' then some (String.mk acc.reverse, rest)
    else if c = '\\' then
      match rest with
      | [] => none
      | e :: rest2 =>
        if e = '"' then parseStringBody ('"' :: acc) rest2
        else if e = '\\' then parseStringBody ('\\' :: acc) rest2
        else if e = '/' then parseStringBody ('/' :: acc) rest2
        else if e = 'b' then parseStringBody ('\x08' :: acc) rest2
        else if e = 'f' then parseStringBody ('\x0c' :: acc) rest2
        else if e = 'n' then parseStringBody ('\n' :: acc) rest2
        else if e = 'r' then parseStringBody ('\r' :: acc) rest2
        else if e = 't' then parseStringBody ('\t' :: acc) rest2
        else none
    else parseStringBody (c :: acc) rest

/-- Parse the elements of a JSON array of strings after the opening `[`
(and after any first element handling), fuel-bounded by input length. -/
def parseArrayElems (fuel : ℕ) (cs : List Char) (acc : List String) :
    Option (List String × List Char) :=
  match fuel with
  | 0 => none
  | fuel + 1 =>
    match skipWs cs with
    | '"' :: rest =>
      match parseStringBody [] rest with
      | none => none
      | some (s, rest2) =>
        match skipWs rest2 with
        | ',' :: rest3 => parseArrayElems fuel rest3 (s :: acc)
        | ']' :: rest3 => some ((s :: acc).reverse, rest3)
        | _ => none
    | _ => none

/-- `json.Unmarshal(env, &[]string)`: `none` = parse error, `some none` =
JSON `null` (nil slice, no error), `some (some xs)` = decoded array. -/
def jsonUnmarshalStringArray (s : String) : Option (Option (List String)) :=
  match skipWs s.data with
  | 'n' :: 'u' :: 'l' :: 'l' :: rest =>
    if skipWs rest = [] then some none else none
  | '[' :: rest =>
    match skipWs rest with
    | ']' :: rest2 => if skipWs rest2 = [] then some (some []) else none
    | _ =>
      match parseArrayElems (s.data.length + 1) rest [] with
      | none => none
      | some (xs, rest2) => if skipWs rest2 = [] then some (some xs) else none
  | _ => none

/-- A Go `map[string]string` assignment on an association list. -/
def mapInsert (m : List (String × String)) (k v : String) : List (String × String) :=
  if m.any (fun p => p.1 = k) then m.map (fun p => if p.1 = k then (k, v) else p)
  else m ++ [(k, v)]

/-- The entry loop of `parseStaticLabels`: process each `key=value` string
in order, stopping with an error on an empty entry or an entry without
`=`.  The key is everything before the first `=`
(`strings.Split(label, "=")[0]`), the value everything after it
(`strings.SplitN(label, "=", 2)[1]`).  Returns the (partially) built map
and the error, mirroring the Go return values. -/
def parseStaticLabelsLoop (labels : List String) (m : List (String × String)) :
    List (String × String) × Option String :=
  match labels with
  | [] => (m, none)
  | label :: rest =>
    if label = "" then (m, some "STATIC_LABELS contains empty string")
    else if label.data.any (fun c => c = '=') = false then
      (m, some "STATIC_LABELS contains string that is not a key=value pair")
    else
      let key := String.mk (label.data.takeWhile (fun c => ¬ c = '='))
      let value := String.mk ((label.data.dropWhile (fun c => ¬ c = '=')).drop 1)
      parseStaticLabelsLoop rest (mapInsert m key value)

/-- `parseStaticLabels` (main.go): empty env yields an empty map; a JSON
error yields the empty map and the error; otherwise the entries are
processed by `parseStaticLabelsLoop`. -/
def parseStaticLabels (env : String) : List (String × String) × Option String :=
  if env = "" then ([], none)
  else
    match jsonUnmarshalStringArray env with
    | none => ([], some "json unmarshal error")
    | some none => ([], none)
    | some (some rawLabels) => parseStaticLabelsLoop rawLabels []

/-! ## Wire codec (`rawDataIntoRequests` / `requestsIntoRawData`)

The framing layer of `pbutil.ReadDelimited` / `pbutil.WriteDelimited` is
modelled on byte lists (`List ℕ`, each element `< 256`).  The inner
protobuf message codec (`proto.Unmarshal` / `proto.Marshal`) is a
parameter: `unmarshal : List ℕ → Option M` (with `none` a decode error)
and `marshal : M → List ℕ`.

`ReadDelimited` reads the length prefix byte by byte (at most
`binary.MaxVarintLen32 = 5` bytes): running out of input before the
varint is complete is `io.EOF`; five continuation bytes are
`errInvalidVarint`.  It then reads the payload with `io.ReadFull`:
no payload byte available is `io.EOF`, a partial payload is
`io.ErrUnexpectedEOF`.  Only `io.EOF` makes `rawDataIntoRequests` stop
cleanly; every other error is returned to the caller. -/

/-- Outcome of the byte-by-byte varint read of `ReadDelimited`. -/
inductive VarintResult where
  | eofR
  | invalidR
  | okR (value : ℕ) (rest : List ℕ)
deriving DecidableEq

/-- Read a varint as `ReadDelimited` does: one byte at a time, giving up
with `io.EOF` when the input ends and with `errInvalidVarint` once
5 bytes have been read without completing the varint. -/
def readVarint (input : List ℕ) (bytesRead : ℕ) (acc : ℕ) : VarintResult :=
  if 5 ≤ bytesRead then .invalidR
  else
    match input with
    | [] => .eofR
    | b :: rest =>
      if b < 128 then .okR (acc + b <<< (7 * bytesRead)) rest
      else readVarint rest (bytesRead + 1) (acc + (b % 128) <<< (7 * bytesRead))

/-- Outcome of one `pbutil.ReadDelimited` call as observed by
`rawDataIntoRequests`: clean stop (`io.EOF`), fatal error, or one decoded
message plus remaining input. -/
inductive FrameStep (M : Type) where
  | eofStop
  | fatal
  | ok (m : M) (rest : List ℕ)

/-- `pbutil.ReadDelimited`: length prefix, then `io.ReadFull` of the
payload, then `proto.Unmarshal`. -/
def readDelimited {M : Type} (unmarshal : List ℕ → Option M) (input : List ℕ) :
    FrameStep M :=
  match readVarint input 0 0 with
  | .eofR => .eofStop
  | .invalidR => .fatal
  | .okR len rest =>
    if rest.length = 0 ∧ 0 < len then .eofStop
    else if rest.length < len then .fatal
    else
      match unmarshal (rest.take len) with
      | none => .fatal
      | some m => .ok m (rest.drop len)

/-- The decode loop of `rawDataIntoRequests`, fuel-bounded (each decoded
frame consumes at least one byte, so `input.length + 1` fuel always
suffices). -/
def decodeFrames {M : Type} (unmarshal : List ℕ → Option M) :
    ℕ → List ℕ → Option (List M)
  | 0, _ => none
  | fuel + 1, input =>
    match readDelimited unmarshal input with
    | .eofStop => some []
    | .fatal => none
    | .ok m rest => (decodeFrames unmarshal fuel rest).map (m :: ·)

/-- `rawDataIntoRequests` (main.go): decode consecutive length-prefixed
messages until `io.EOF`; `none` models a returned error. -/
def rawDataIntoRequests {M : Type} (unmarshal : List ℕ → Option M)
    (input : List ℕ) : Option (List M) :=
  decodeFrames unmarshal (input.length + 1) input

/-- Minimal (canonical) unsigned varint encoding, as written by
`pbutil.WriteDelimited` (`binary.PutUvarint`). -/
def writeUvarint (n : ℕ) : List ℕ :=
  if h : n < 128 then [n]
  else (n % 128 + 128) :: writeUvarint (n / 128)
decreasing_by
  exact Nat.div_lt_self (by omega) (by omega)

/-- `pbutil.WriteDelimited`: length prefix followed by the marshalled
message. -/
def writeDelimited {M : Type} (marshal : M → List ℕ) (m : M) : List ℕ :=
  writeUvarint (marshal m).length ++ marshal m

/-- `requestsIntoRawData` (main.go): concatenate the delimited frames. -/
def requestsIntoRawData {M : Type} (marshal : M → List ℕ) (reqs : List M) :
    List ℕ :=
  (reqs.map (writeDelimited marshal)).flatten

/-! ## Enrichment orchestrator (`enhanceRequests`)

The per-invocation environment bundles the configuration flags and the
external capabilities:
* `supported ns` — `config.SupportedServices.GetService(ns) != nil`;
* `getRes ns` — the outcome of `getOrCacheResources` for `ns` (a
  no-resources-found outcome is `.ok []`, per `retrieveResources`);
* `associate ns resources cwm` — the associator built by
  `maxdimassociator.NewAssociator` for `ns` over `resources`, applied to
  `cwm` (`AssociateMetricToResource`), returning the matched resource (or
  none) and the skip signal.

The state carries the two in-memory maps (`resourcesPerNamespace`,
`associatorsPerNamespace`; an associator is represented by the resource
list it was built over, which determines it given `associate`) and, as
instrumentation, the list of namespaces for which `getOrCacheResources`
was invoked (`fetchLog`), in invocation order. -/

/-- Per-invocation environment of `enhanceRequests`. -/
structure EnhanceEnv where
  supported : String → Bool
  getRes : String → Except Unit (List TaggedResource)
  associate : String → List TaggedResource → CWMetric → Option TaggedResource × Bool
  promStringTag : String → Bool → Option String
  metricTags : TaggedResource → List String → List Tag
  buildMetricName : String → String → String → String
  continueOnResourceFailure : Bool
  staticLabels : List (String × String)
  defaultLabels : Bool
  labelsSnakeCase : Bool
  exportedTags : List String
  yaceCompatMode : Bool
  yaceCompatStats : String → Bool

/-- Association-list lookup (Go map read). -/
def lookupNs {α : Type} (m : List (String × α)) (k : String) : Option α :=
  (m.find? (fun p => p.1 = k)).map (fun p => p.2)

/-- Association-list insert for a key not yet present (Go map write; in
`enhanceRequests` both maps are only written at absent keys). -/
def insertNs {α : Type} (m : List (String × α)) (k : String) (v : α) :
    List (String × α) :=
  m ++ [(k, v)]

/-- Mutable state of one `enhanceRequests` invocation. -/
structure EnhanceState where
  resourceCache : List (String × List TaggedResource)
  associatorCache : List (String × List TaggedResource)
  fetchLog : List String

/-- The association/label step once the resource cache holds the
namespace (lines 244-251 of main.go). -/
def associateAndLabel (env : EnhanceEnv) (st : EnhanceState) (cwm : CWMetric)
    (effectiveRegion accountID : String) :
    EnhanceState × (CWMetric × List KeyValue) :=
  let st :=
    match lookupNs st.associatorCache cwm.Namespace with
    | some _ => st
    | none =>
      { st with associatorCache :=
          (insertNs st.associatorCache cwm.Namespace
            ((lookupNs st.resourceCache cwm.Namespace).getD [])) }
  let ascResources := (lookupNs st.associatorCache cwm.Namespace).getD []
  let rs := env.associate cwm.Namespace ascResources cwm
  let labels := buildYACELabelsKeyValue env.promStringTag env.metricTags cwm
    rs.1 rs.2 env.staticLabels env.defaultLabels env.labelsSnakeCase
    env.exportedTags effectiveRegion accountID
  (st, (cwm, labels))

/-- One summary data point's enrichment (lines 211-251 of main.go).
Returns the updated state and `some (cwm, labels)` when the data point is
enriched, `none` when it is skipped (missing name/namespace, unsupported
namespace, or a resource-fetch failure under the continue-on-failure
policy).  `.error` models the immediate return of the fetch error when
the policy demands abort. -/
def enrichDataPoint (env : EnhanceEnv) (st : EnhanceState)
    (effectiveRegion accountID : String) (dp : SummaryDataPoint) :
    Except Unit (EnhanceState × Option (CWMetric × List KeyValue)) :=
  let cwm := buildCloudWatchMetricFromKeyValues dp.Attributes
  if cwm.MetricName = "" ∨ cwm.Namespace = "" then .ok (st, none)
  else if env.supported cwm.Namespace = false then .ok (st, none)
  else
    match lookupNs st.resourceCache cwm.Namespace with
    | some _ =>
      let r := associateAndLabel env st cwm effectiveRegion accountID
      .ok (r.1, some r.2)
    | none =>
      let st := { st with fetchLog := st.fetchLog ++ [cwm.Namespace] }
      match env.getRes cwm.Namespace with
      | .error _ =>
        if env.continueOnResourceFailure then .ok (st, none)
        else .error ()
      | .ok resources =>
        let st := { st with resourceCache := insertNs st.resourceCache cwm.Namespace resources }
        let r := associateAndLabel env st cwm effectiveRegion accountID
        .ok (r.1, some r.2)

/-- The per-metric loop over a Summary metric's data points (lines
211-266).  Returns the state, the gauges accumulated for YACE-compat
mode, the metric name as rewritten by the in-place branch (the last
processed data point wins; `mName` when none is processed), and the
in-place-updated data points. -/
def processSummaryDPs (env : EnhanceEnv) (st : EnhanceState)
    (effectiveRegion accountID : String) (mName : String) :
    List SummaryDataPoint →
    Except Unit (EnhanceState × List OtlpMetric × String × List SummaryDataPoint)
  | [] => .ok (st, [], mName, [])
  | dp :: rest =>
    match enrichDataPoint env st effectiveRegion accountID dp with
    | .error e => .error e
    | .ok (st', none) =>
      (processSummaryDPs env st' effectiveRegion accountID mName rest).map
        (fun out => (out.1, out.2.1, out.2.2.1, dp :: out.2.2.2))
    | .ok (st', some (cwm, labels)) =>
      let gauges := summaryToGauges env.buildMetricName cwm dp labels env.yaceCompatStats
      let statistic :=
        let s := attrValue dp.Attributes "Statistic"
        if s = "" then attrValue dp.Attributes "statistic" else s
      let newName := env.buildMetricName cwm.Namespace cwm.MetricName statistic
      let dpNew := { dp with Attributes := labels }
      (processSummaryDPs env st' effectiveRegion accountID newName rest).map
        (fun out => (out.1, gauges ++ out.2.1, out.2.2.1, dpNew :: out.2.2.2))

/-- Process one metric (lines 208-273).  Returns the state, the metric's
contribution to `newMetrics` (YACE-compat mode), and the metric as
updated in place (non-compat mode). -/
def processMetric (env : EnhanceEnv) (st : EnhanceState)
    (effectiveRegion accountID : String) (m : OtlpMetric) :
    Except Unit (EnhanceState × List OtlpMetric × OtlpMetric) :=
  match m.Data with
  | .summary dps =>
    (processSummaryDPs env st effectiveRegion accountID m.Name dps).map
      (fun out => (out.1, out.2.1, { Name := out.2.2.1, Data := .summary out.2.2.2 }))
  | _ => .ok (st, [m], m)

/-- The metric loop of one scope (lines 207-274): thread the state,
concatenate the `newMetrics` contributions, collect the in-place results. -/
def processMetrics (env : EnhanceEnv) (st : EnhanceState)
    (effectiveRegion accountID : String) :
    List OtlpMetric → Except Unit (EnhanceState × List OtlpMetric × List OtlpMetric)
  | [] => .ok (st, [], [])
  | m :: rest =>
    match processMetric env st effectiveRegion accountID m with
    | .error e => .error e
    | .ok (st', contrib, mNew) =>
      (processMetrics env st' effectiveRegion accountID rest).map
        (fun out => (out.1, contrib ++ out.2.1, mNew :: out.2.2))

/-- One scope's metric list after enrichment (lines 206-279): the
`newMetrics` replacement in YACE-compat mode, the in-place-updated list
otherwise. -/
def enhanceScopeMetrics (env : EnhanceEnv) (st : EnhanceState)
    (effectiveRegion accountID : String) (metrics : List OtlpMetric) :
    Except Unit (EnhanceState × List OtlpMetric) :=
  (processMetrics env st effectiveRegion accountID metrics).map
    (fun out => (out.1, if env.yaceCompatMode then out.2.1 else out.2.2))

/-- OTLP `ResourceMetrics`: resource attributes (`none` = nil resource)
and the scopes' metric lists. -/
structure ResourceMetrics where
  Resource : Option (List KeyValue)
  ScopeMetrics : List (List OtlpMetric)

/-- `extractResourceAttributes` (main.go): `cloud.account.id` and
`cloud.region` from the resource attributes (last occurrence wins, as the
Go loop overwrites). -/
def extractResourceAttributes (rm : ResourceMetrics) : String × String :=
  match rm.Resource with
  | none => ("", "")
  | some attrs =>
    attrs.foldl
      (fun acc kv =>
        if kv.1 = "cloud.account.id" then (kv.2.getStringValue, acc.2)
        else if kv.1 = "cloud.region" then (acc.1, kv.2.getStringValue)
        else acc)
      ("", "")

/-- The scope loop of one `ResourceMetrics`: thread the state through
`enhanceScopeMetrics` over the scopes' metric lists. -/
def enhanceScopes (env : EnhanceEnv) (effectiveRegion accountID : String)
    (st : EnhanceState) :
    List (List OtlpMetric) → Except Unit (EnhanceState × List (List OtlpMetric))
  | [] => .ok (st, [])
  | sm :: rest =>
    match enhanceScopeMetrics env st effectiveRegion accountID sm with
    | .error e => .error e
    | .ok (st', smNew) =>
      (enhanceScopes env effectiveRegion accountID st' rest).map
        (fun out => (out.1, smNew :: out.2))

/-- One `ResourceMetrics` (lines 197-280), including the
effective-region fallback to the Lambda region. -/
def enhanceResourceMetrics (env : EnhanceEnv) (region : Option String)
    (st : EnhanceState) (rm : ResourceMetrics) :
    Except Unit (EnhanceState × ResourceMetrics) :=
  let ar := extractResourceAttributes rm
  let effectiveRegion :=
    if ar.2 = "" then (match region with | some r => r | none => "") else ar.2
  (enhanceScopes env effectiveRegion ar.1 st rm.ScopeMetrics).map
    (fun out => (out.1, { rm with ScopeMetrics := out.2 }))

/-- The `ResourceMetrics` loop of one request. -/
def enhanceRMs (env : EnhanceEnv) (region : Option String) (st : EnhanceState) :
    List ResourceMetrics → Except Unit (EnhanceState × List ResourceMetrics)
  | [] => .ok (st, [])
  | rm :: rms =>
    match enhanceResourceMetrics env region st rm with
    | .error e => .error e
    | .ok (st', rmNew) =>
      (enhanceRMs env region st' rms).map (fun out => (out.1, rmNew :: out.2))

/-- `enhanceRequests` (main.go): the full loop over requests and their
`ResourceMetrics` (each request is its list of `ResourceMetrics`). -/
def enhanceRequests (env : EnhanceEnv) (region : Option String)
    (st : EnhanceState) :
    List (List ResourceMetrics) →
    Except Unit (EnhanceState × List (List ResourceMetrics))
  | [] => .ok (st, [])
  | req :: rest =>
    match enhanceRMs env region st req with
    | .error e => .error e
    | .ok (st', reqNew) =>
      (enhanceRequests env region st' rest).map (fun out => (out.1, reqNew :: out.2))

/-- A concrete stand-in for `promutil.BuildMetricName`, used by witnesses. -/
def bmnW : String → String → String → String :=
  fun ns mn st => ns ++ "_" ++ mn ++ "_" ++ st

/-- Concrete descriptor used by witnesses. -/
def cwmW : CWMetric := ⟨"CPUUtilization", "AWS/EC2", []⟩

/-- Concrete summary data point with count 10 and sum 50. -/
def dpW : SummaryDataPoint := ⟨[], 900, 1000, 10, 50, []⟩

/-- Concrete enabled-statistic set used by witnesses. -/
def statsW : String → Bool :=
  fun s => s = "SampleCount" || s = "Sum" || s = "Average"

/-- Identity stand-in for `promutil.PromStringTag` (every name valid),
used by witnesses and counterexamples. -/
def pstW : String → Bool → Option String := fun s _ => some s

/-- Allow-list filter stand-in for `MetricTags`, used by witnesses and
counterexamples. -/
def mtagsW : TaggedResource → List String → List Tag :=
  fun r keys => r.Tags.filter (fun t => keys.contains t.Key)

/-- A concrete tagged resource used by witnesses and counterexamples. -/
def resW : TaggedResource :=
  ⟨"arn:aws:ec2:us-east-1:123456789012:instance/i-0abc", "AWS/EC2", "us-east-1",
   [⟨"Name", "x"⟩, ⟨"Environment", "prod"⟩]⟩

/-- One data point's contribution to the YACE-compat metric list: nothing
when the data point was skipped, otherwise the gauges produced by
`summaryToGauges` for some descriptor and label set. -/
def PieceOf (env : EnhanceEnv) (dp : SummaryDataPoint) (p : List OtlpMetric) : Prop :=
  p = [] ∨ ∃ cwm labels,
    p = summaryToGauges env.buildMetricName cwm dp labels env.yaceCompatStats

/-- One metric's contribution to the YACE-compat metric list: a summary
metric contributes exactly the concatenation of its data points' gauges;
any other metric contributes itself, unchanged. -/
def ContribOf (env : EnhanceEnv) (m : OtlpMetric) (c : List OtlpMetric) : Prop :=
  (∃ dps pieces, m.Data = .summary dps ∧ c = pieces.flatten ∧
    List.Forall₂ (PieceOf env) dps pieces) ∨
  ((∀ dps, m.Data ≠ .summary dps) ∧ c = [m])

/-- The in-place update of one metric: a non-summary metric is untouched;
a summary metric keeps its data points (same number, same order), each
either untouched or changed only in its attributes, with only the
metric name possibly rewritten. -/
def InPlaceOf (m mNew : OtlpMetric) : Prop :=
  ((∀ dps, m.Data ≠ .summary dps) ∧ mNew = m) ∨
  (∃ dps dpsNew nm, m.Data = .summary dps ∧ mNew = ⟨nm, .summary dpsNew⟩ ∧
    List.Forall₂
      (fun dp dpNew => dpNew = dp ∨ ∃ labels, dpNew = { dp with Attributes := labels })
      dps dpsNew)

/-- Concrete environment for the orchestrator witnesses: YACE-compat
mode, one supported namespace, a fetch returning `resW`, first-resource
association, only the `Sum` statistic enabled. -/
def envW : EnhanceEnv :=
  { supported := fun ns => ns == "AWS/EC2"
    getRes := fun _ => .ok [resW]
    associate := fun _ rs _ => (rs.head?, false)
    promStringTag := pstW
    metricTags := mtagsW
    buildMetricName := bmnW
    continueOnResourceFailure := true
    staticLabels := []
    defaultLabels := false
    labelsSnakeCase := true
    exportedTags := []
    yaceCompatMode := true
    yaceCompatStats := fun s => s == "Sum" }

/-- Concrete summary data point carrying a CloudWatch descriptor. -/
def dpW2 : SummaryDataPoint :=
  ⟨[("Namespace", .strV "AWS/EC2"), ("MetricName", .strV "CPUUtilization")],
   900, 1000, 10, 50, []⟩

/-- Concrete scope: one summary metric and one non-summary metric. -/
def msW : List OtlpMetric := [⟨"m1", .summary [dpW2]⟩, ⟨"m2", .otherData 7⟩]

/-- The label set `envW` produces for `dpW2`. -/
def labelsW : List KeyValue :=
  [("region", strVal "us-east-1"), ("account_id", strVal "123456789012"),
   ("namespace", strVal "AWS/EC2"),
   ("name", strVal "arn:aws:ec2:us-east-1:123456789012:instance/i-0abc"),
   ("tag_Name", strVal "x"), ("tag_Environment", strVal "prod")]

/-- The state after enriching `msW` from the empty state. -/
def stW1 : EnhanceState :=
  ⟨[("AWS/EC2", [resW])], [("AWS/EC2", [resW])], ["AWS/EC2"]⟩

/-- The observable cache effect of one enrichment step: the in-memory
resource map only gains entries, and every namespace fetched during the
step was absent from the resource map at the start. -/
def CacheStep (st st1 : EnhanceState) : Prop :=
  (∀ ns rs, lookupNs st.resourceCache ns = some rs →
    lookupNs st1.resourceCache ns = some rs) ∧
  (∃ newLog, st1.fetchLog = st.fetchLog ++ newLog ∧
    ∀ ns ∈ newLog, lookupNs st.resourceCache ns = none)

/-- Environment whose fetch always fails, with every namespace supported
and skip-on-failure active. -/
def envW3 : EnhanceEnv :=
  { envW with supported := fun _ => true, getRes := fun _ => .error () }

/-! ## Theorems -/

/-- Fold-append lemma for the quantile loop of `summaryToGauges`. -/
theorem foldl_quantiles (bmn : String → String → String → String)
    (cwm : CWMetric) (ts startTs : ℕ) (attrs : List KeyValue)
    (stats : String → Bool) (l : List (ℚ × ℚ)) (gs : List OtlpMetric) :
    l.foldl
      (fun gs qv =>
        let stat := quantileToStatistic qv.1
        if stats stat then
          gs ++ [newGauge (bmn cwm.Namespace cwm.MetricName stat) qv.2 ts startTs attrs]
        else gs)
      gs
    = gs ++ l.filterMap (fun qv =>
        if stats (quantileToStatistic qv.1) then
          some (newGauge (bmn cwm.Namespace cwm.MetricName (quantileToStatistic qv.1))
            qv.2 ts startTs attrs)
        else none) := by
  induction l generalizing gs with
  | nil => simp
  | cons qv rest ih =>
    by_cases h : stats (quantileToStatistic qv.1) = true <;>
      simp [h, ih]

/-- C2: `quantileToStatistic` maps `0 → Minimum`, `1 → Maximum`, the
listed concrete quantiles to `p50`, `p95`, `p99`, `p99_9`, and every
other quantile to `quantile*100` printed as `p<N>` when integral and
`p<N>_<decimal>` when fractional. -/
theorem quantileToStatistic_spec :
    quantileToStatistic 0 = "Minimum" ∧
    quantileToStatistic 1 = "Maximum" ∧
    quantileToStatistic (1/2) = "p50" ∧
    quantileToStatistic (19/20) = "p95" ∧
    quantileToStatistic (99/100) = "p99" ∧
    quantileToStatistic (999/1000) = "p99_9" ∧
    (∀ q : ℚ, q ≠ 0 → q ≠ 1 →
      quantileToStatistic q =
        (if (q * 100).den = 1 then "p" ++ toString (q * 100).num
         else "p" ++ fmtPct1 (q * 100))) := by
  refine ⟨by simp [quantileToStatistic], by norm_num [quantileToStatistic],
    by norm_num [quantileToStatistic]; rfl,
    by norm_num [quantileToStatistic]; rfl,
    by norm_num [quantileToStatistic]; rfl,
    by norm_num [quantileToStatistic, fmtPct1, roundHalfEven]; rfl,
    fun q h0 h1 => by simp [quantileToStatistic, h0, h1]⟩

/-- Witness for C2: the general clause applied at `q = 999/1000`. -/
theorem quantileToStatistic_spec_witness :
    quantileToStatistic ((999 : ℚ)/1000) =
      (if (((999 : ℚ)/1000) * 100).den = 1
       then "p" ++ toString ((((999 : ℚ)/1000)) * 100).num
       else "p" ++ fmtPct1 (((999 : ℚ)/1000) * 100)) :=
  quantileToStatistic_spec.2.2.2.2.2.2 (999/1000) (by norm_num) (by norm_num)

/-- C3: with `Average` enabled, `summaryToGauges` emits no Average gauge
when the count is zero, and emits an Average gauge of value
`sum / count` when the count is positive; the remaining output is the
SampleCount gauge, the Sum gauge and the per-quantile gauges, in order. -/
theorem summaryToGauges_average_guard
    (bmn : String → String → String → String) (cwm : CWMetric)
    (dp : SummaryDataPoint) (attrs : List KeyValue) (stats : String → Bool)
    (hA : stats "Average" = true) :
    (dp.Count = 0 →
      summaryToGauges bmn cwm dp attrs stats =
        (if stats "SampleCount" then
          [newGauge (bmn cwm.Namespace cwm.MetricName "SampleCount")
            (dp.Count : ℚ) dp.TimeUnixNano dp.StartTimeUnixNano attrs] else [])
        ++ (if stats "Sum" then
          [newGauge (bmn cwm.Namespace cwm.MetricName "Sum")
            dp.Sum dp.TimeUnixNano dp.StartTimeUnixNano attrs] else [])
        ++ dp.QuantileValues.filterMap (fun qv =>
            if stats (quantileToStatistic qv.1) then
              some (newGauge (bmn cwm.Namespace cwm.MetricName (quantileToStatistic qv.1))
                qv.2 dp.TimeUnixNano dp.StartTimeUnixNano attrs)
            else none)) ∧
    (0 < dp.Count →
      summaryToGauges bmn cwm dp attrs stats =
        (if stats "SampleCount" then
          [newGauge (bmn cwm.Namespace cwm.MetricName "SampleCount")
            (dp.Count : ℚ) dp.TimeUnixNano dp.StartTimeUnixNano attrs] else [])
        ++ (if stats "Sum" then
          [newGauge (bmn cwm.Namespace cwm.MetricName "Sum")
            dp.Sum dp.TimeUnixNano dp.StartTimeUnixNano attrs] else [])
        ++ [newGauge (bmn cwm.Namespace cwm.MetricName "Average")
            (dp.Sum / (dp.Count : ℚ)) dp.TimeUnixNano dp.StartTimeUnixNano attrs]
        ++ dp.QuantileValues.filterMap (fun qv =>
            if stats (quantileToStatistic qv.1) then
              some (newGauge (bmn cwm.Namespace cwm.MetricName (quantileToStatistic qv.1))
                qv.2 dp.TimeUnixNano dp.StartTimeUnixNano attrs)
            else none)) := by
  constructor
  · intro h0
    simp only [summaryToGauges, foldl_quantiles, hA, h0]
    by_cases hs : stats "SampleCount" = true <;>
      by_cases hm : stats "Sum" = true <;> simp [hs, hm]
  · intro hpos
    simp only [summaryToGauges, foldl_quantiles, hA, hpos]
    by_cases hs : stats "SampleCount" = true <;>
      by_cases hm : stats "Sum" = true <;> simp [hs, hm, hpos]

/-- Witness for C3: at count 10 and sum 50 the Average gauge has value 5. -/
theorem summaryToGauges_average_guard_witness :
    summaryToGauges bmnW cwmW dpW [] statsW =
      [newGauge "AWS/EC2_CPUUtilization_SampleCount" 10 1000 900 [],
       newGauge "AWS/EC2_CPUUtilization_Sum" 50 1000 900 [],
       newGauge "AWS/EC2_CPUUtilization_Average" 5 1000 900 []] := by
  have h := (summaryToGauges_average_guard bmnW cwmW dpW [] statsW rfl).2
    (by norm_num [dpW])
  rw [h]
  norm_num [bmnW, cwmW, dpW, statsW]
  exact ⟨rfl, rfl, rfl⟩

/-- Fold-append lemma for the dimension loop of `buildYACELabelsKeyValue`. -/
theorem foldl_dimensions (pst : String → Bool → Option String) (snake : Bool)
    (l : List Dimension) (out : List KeyValue) :
    l.foldl
      (fun acc dim =>
        match pst dim.Name snake with
        | none => acc
        | some promTag => acc ++ [("dimension_" ++ promTag, strVal dim.Value)])
      out
    = out ++ l.filterMap
        (fun dim => (pst dim.Name snake).map
          (fun t => ("dimension_" ++ t, strVal dim.Value))) := by
  induction l generalizing out with
  | nil => simp
  | cons d ds ih =>
    cases h : pst d.Name snake <;> simp [h, ih]

/-- Fold-append lemma for the tag loop of `buildYACELabelsKeyValue`. -/
theorem foldl_tags (pst : String → Bool → Option String) (snake : Bool)
    (l : List Tag) (out : List KeyValue) :
    l.foldl
      (fun acc tag =>
        match pst tag.Key snake with
        | none => acc
        | some promTag => acc ++ [("tag_" ++ promTag, strVal tag.Value)])
      out
    = out ++ l.filterMap
        (fun tag => (pst tag.Key snake).map
          (fun t => ("tag_" ++ t, strVal tag.Value))) := by
  induction l generalizing out with
  | nil => simp
  | cons t ts ih =>
    cases h : pst t.Key snake <;> simp [h, ih]

/-- Fold-append lemma for the static-label loop of
`buildYACELabelsKeyValue`. -/
theorem foldl_staticLabels (pst : String → Bool → Option String) (snake : Bool)
    (l : List (String × String)) (out : List KeyValue) :
    l.foldl
      (fun acc kv =>
        match pst kv.1 snake with
        | none => acc
        | some promTag => acc ++ [("custom_tag_" ++ promTag, strVal kv.2)])
      out
    = out ++ l.filterMap
        (fun kv => (pst kv.1 snake).map
          (fun t => ("custom_tag_" ++ t, strVal kv.2))) := by
  induction l generalizing out with
  | nil => simp
  | cons kv kvs ih =>
    cases h : pst kv.1 snake <;> simp [h, ih]

/-- C1 (amended): the exact structure of the label set built by
`buildYACELabelsKeyValue` — `region` when non-empty, `account_id` when
non-empty, `namespace` when the namespace is non-empty, exactly one
`name` (the matched resource's ARN, or "global" when unmatched or
skipped), one `dimension_<name>` per valid dimension, the `tag_<name>`
block (restricted by the allow-list) only for a matched, unskipped
resource, and the `custom_tag_<name>` block only when matched-not-skipped
or the default-labels flag is set — in this order. -/
theorem buildYACELabelsKeyValue_structure
    (pst : String → Bool → Option String)
    (mtags : TaggedResource → List String → List Tag)
    (cwm : CWMetric) (r : Option TaggedResource) (skip : Bool)
    (staticLabels : List (String × String)) (defaultLabels : Bool)
    (snake : Bool) (exported : List String) (region accountID : String) :
    buildYACELabelsKeyValue pst mtags cwm r skip staticLabels defaultLabels
      snake exported region accountID =
      (if region ≠ "" then [("region", strVal region)] else [])
      ++ (if accountID ≠ "" then [("account_id", strVal accountID)] else [])
      ++ (if cwm.Namespace ≠ "" then [("namespace", strVal cwm.Namespace)] else [])
      ++ [("name", strVal (match r with
            | some res => if skip then "global" else res.ARN
            | none => "global"))]
      ++ cwm.Dimensions.filterMap
          (fun dim => (pst dim.Name snake).map
            (fun t => ("dimension_" ++ t, strVal dim.Value)))
      ++ (match r with
          | some res =>
            if skip then []
            else (if 0 < exported.length then mtags res exported else res.Tags).filterMap
                (fun tag => (pst tag.Key snake).map
                  (fun t => ("tag_" ++ t, strVal tag.Value)))
          | none => [])
      ++ (if defaultLabels ∨ (r.isSome ∧ skip = false) then
            staticLabels.filterMap
              (fun kv => (pst kv.1 snake).map
                (fun t => ("custom_tag_" ++ t, strVal kv.2)))
          else []) := by
  unfold buildYACELabelsKeyValue
  cases r with
  | none =>
    simp only [foldl_dimensions, foldl_tags, foldl_staticLabels]
    split_ifs <;> simp [List.append_assoc]
  | some res =>
    cases skip <;>
      · simp only [foldl_dimensions, foldl_tags, foldl_staticLabels]
        split_ifs <;> simp [List.append_assoc]

/-- Counterexample to C1 as stated: for a descriptor whose namespace is
empty, the builder emits no `namespace` label at all (the code guards it
with `cwm.Namespace != ""`), while the claim promises a `namespace` label
unconditionally. -/
theorem buildYACELabelsKeyValue_no_namespace_label :
    buildYACELabelsKeyValue pstW mtagsW ⟨"M", "", []⟩ none false [] false true []
        "us-east-1" "123456789012"
      = [("region", strVal "us-east-1"),
         ("account_id", strVal "123456789012"),
         ("name", strVal "global")] ∧
    (buildYACELabelsKeyValue pstW mtagsW ⟨"M", "", []⟩ none false [] false true []
        "us-east-1" "123456789012").all
      (fun kv => !(kv.1 == "namespace")) = true := ⟨rfl, rfl⟩

/-- Counterexample to C6 as stated: an access at exactly `t = t0 + d`
(here `t0 = 0`, `d = 100`, `t = 100`) does NOT trigger a refresh — the
expiry test `modTime + expiration < now` is strict, so the persisted
entry is returned and no fetch is performed. -/
theorem getOrCacheResources_boundary_no_refresh :
    getOrCacheResources true 100 100 (some ⟨0, .valid [resW]⟩) (.ok []) =
      ⟨.ok [resW], some ⟨0, .valid [resW]⟩, false⟩ := rfl

/-- C6 (amended): an entry persisted at `t0` with TTL `d` is stale — and
refreshed, with the store overwritten on a successful fetch — exactly
when `t0 + d < t`; for `t ≤ t0 + d` (including `t = t0 + d`) the
persisted entry is used and no fetch is performed. -/
theorem getOrCacheResources_staleness (d t0 t : ℤ) (c : CacheContent)
    (fr : Except String (List TaggedResource)) :
    (t0 + d < t →
      getOrCacheResources true d t (some ⟨t0, c⟩) fr =
        (match fr with
         | .error e => ⟨.error e, some ⟨t0, c⟩, true⟩
         | .ok rs => ⟨.ok rs, some ⟨t, .valid rs⟩, true⟩)) ∧
    (t ≤ t0 + d →
      getOrCacheResources true d t (some ⟨t0, c⟩) fr =
        (match c with
         | .valid rs => ⟨.ok rs, some ⟨t0, c⟩, false⟩
         | .corrupt => ⟨.error "json unmarshal", some ⟨t0, c⟩, false⟩)) := by
  constructor
  · intro h
    simp only [getOrCacheResources, if_pos h]
    cases fr <;> simp
  · intro h
    simp only [getOrCacheResources, if_neg (not_lt.mpr h)]
    cases c <;> simp

/-- Witness for C6: at `t0 = 0`, `d = 1`, `t = 5` the entry is stale and
a successful fetch refreshes the store; at `t0 = 0`, `d = 100`, `t = 100`
the entry is fresh and returned as-is. -/
theorem getOrCacheResources_staleness_witness :
    getOrCacheResources true 1 5 (some ⟨0, .corrupt⟩) (.ok []) =
      ⟨.ok [], some ⟨5, .valid []⟩, true⟩ ∧
    getOrCacheResources true 100 100 (some ⟨0, .valid []⟩) (.ok [resW]) =
      ⟨.ok [], some ⟨0, .valid []⟩, false⟩ :=
  ⟨(getOrCacheResources_staleness 1 0 5 .corrupt (.ok [])).1 (by decide),
   (getOrCacheResources_staleness 100 0 100 (.valid []) (.ok [resW])).2 (by decide)⟩

/-- Counterexample to C7 as stated: an unexpired but corrupt persisted
entry is NOT treated as absent — `getOrCacheResources` returns the
unmarshal error, performs no fetch and leaves the entry in place. -/
theorem getOrCacheResources_corrupt_is_error :
    getOrCacheResources true 10 5 (some ⟨0, .corrupt⟩) (.ok [resW]) =
      ⟨.error "json unmarshal", some ⟨0, .corrupt⟩, false⟩ := rfl

/-- C7 (amended): for every unexpired corrupt entry, the cache get
returns the parse error to the caller (recoverable under the caller's
continue-on-failure policy), performs no fetch and does not overwrite
the entry; a corrupt entry is refreshed only once it has also expired. -/
theorem getOrCacheResources_corrupt_fresh (d t0 t : ℤ)
    (fr : Except String (List TaggedResource)) (h : t ≤ t0 + d) :
    getOrCacheResources true d t (some ⟨t0, .corrupt⟩) fr =
      ⟨.error "json unmarshal", some ⟨t0, .corrupt⟩, false⟩ := by
  simp only [getOrCacheResources, if_neg (not_lt.mpr h)]
  simp

/-- Witness for C7's amended theorem at `t0 = 0`, `d = 10`, `t = 3`. -/
theorem getOrCacheResources_corrupt_fresh_witness :
    getOrCacheResources true 10 3 (some ⟨0, .corrupt⟩) (.ok []) =
      ⟨.error "json unmarshal", some ⟨0, .corrupt⟩, false⟩ :=
  getOrCacheResources_corrupt_fresh 10 0 3 (.ok []) (by decide)

/-- Counterexample to C8 as stated: an entry with two `=` characters is
not a parse error — `["a=b=c"]` is accepted, with key `a` (text before
the first `=`) and value `b=c` (everything after it). -/
theorem parseStaticLabels_two_equals_accepted :
    parseStaticLabels "[\"a=b=c\"]" = ([("a", "b=c")], none) := by decide

/-- The entry loop succeeds exactly when every entry is non-empty and
contains at least one `=`. -/
theorem parseStaticLabelsLoop_none_iff (labels : List String)
    (m : List (String × String)) :
    (parseStaticLabelsLoop labels m).2 = none ↔
      ∀ l ∈ labels, ¬ l = "" ∧ '=' ∈ l.data := by
  induction labels generalizing m with
  | nil => simp [parseStaticLabelsLoop]
  | cons label rest ih =>
    by_cases h0 : label = ""
    · simp [parseStaticLabelsLoop, h0]
    · by_cases h1 : '=' ∈ label.data
      · have hcond : ¬ (∀ x ∈ label.data, ¬ x = '=') := fun hall => hall '=' h1 rfl
        simp [parseStaticLabelsLoop, h0, hcond, ih, h1]
      · have hcond : ∀ x ∈ label.data, ¬ x = '=' := fun x hx heq => h1 (heq ▸ hx)
        have hany : (label.data.any fun c => c = '=') = false := by
          simp only [List.any_eq_false, decide_eq_true_eq]
          exact hcond
        simp [parseStaticLabelsLoop, h0, hany]
        exact fun hmem => absurd hmem h1

/-- C8 (amended): `parseStaticLabels` errors on malformed JSON
(`"env=prod,team"`), on an empty entry and on an entry without any `=`;
it accepts `["a=b","c=d"]` as `{a: b, c: d}`; an entry is accepted
exactly when it is non-empty and contains at least one `=` (not exactly
one: the key is the text before the first `=`, the value everything
after it). -/
theorem parseStaticLabels_spec :
    parseStaticLabels "env=prod,team" = ([], some "json unmarshal error") ∧
    parseStaticLabels "[\"noequals\"]" =
      ([], some "STATIC_LABELS contains string that is not a key=value pair") ∧
    parseStaticLabels "[\"\"]" = ([], some "STATIC_LABELS contains empty string") ∧
    parseStaticLabels "[\"a=b\",\"c=d\"]" = ([("a", "b"), ("c", "d")], none) ∧
    (∀ labels : List String, ∀ m : List (String × String),
      (parseStaticLabelsLoop labels m).2 = none ↔
        ∀ l ∈ labels, ¬ l = "" ∧ '=' ∈ l.data) :=
  ⟨by decide, by decide, by decide, by decide, parseStaticLabelsLoop_none_iff⟩

/-- Witness for C8's amended theorem: the iff clause applied to the
concrete entry list `["a=b=c"]`. -/
theorem parseStaticLabels_spec_witness :
    (parseStaticLabelsLoop ["a=b=c"] []).2 = none :=
  (parseStaticLabels_spec.2.2.2.2 ["a=b=c"] []).mpr (by decide)

/-- Reading back a minimally-encoded varint, byte by byte, from any
starting offset that leaves it within the 5-byte header budget. -/
theorem readVarint_writeUvarint (n : ℕ) (s : List ℕ) (k acc : ℕ)
    (h : k + (writeUvarint n).length ≤ 5) :
    readVarint (writeUvarint n ++ s) k acc = .okR (acc + n <<< (7 * k)) s := by
  induction n using Nat.strong_induction_on generalizing k acc with
  | _ n ih =>
    by_cases hn : n < 128
    · rw [writeUvarint] at h ⊢
      simp only [hn, dif_pos] at h ⊢
      rw [readVarint.eq_def]
      have hk : ¬ 5 ≤ k := by simp at h; omega
      simp [hk, hn]
    · rw [writeUvarint] at h ⊢
      simp only [hn, dif_neg, not_false_iff] at h ⊢
      rw [readVarint.eq_def]
      have hk : ¬ 5 ≤ k := by simp at h; omega
      have hb : ¬ n % 128 + 128 < 128 := by omega
      simp only [hk, if_false, List.cons_append, hb]
      rw [ih (n / 128) (Nat.div_lt_self (by omega) (by omega)) (k + 1)
        (acc + ((n % 128 + 128) % 128) <<< (7 * k)) (by simp at h ⊢; omega)]
      congr 1
      have h128 : (n % 128 + 128) % 128 = n % 128 := by omega
      rw [h128]
      simp only [Nat.shiftLeft_eq]
      have h7 : 7 * (k + 1) = 7 * k + 7 := by ring
      rw [h7, pow_add]
      have hmd : n % 128 + 128 * (n / 128) = n := Nat.mod_add_div n 128
      have hr : acc + n % 128 * 2 ^ (7 * k) + n / 128 * (2 ^ (7 * k) * 2 ^ 7)
          = acc + (n % 128 + 128 * (n / 128)) * 2 ^ (7 * k) := by ring
      rw [hr, hmd]

/-- A value below `2^(7b)` (with `1 ≤ b`) encodes in at most `b` bytes. -/
theorem writeUvarint_length_le (b : ℕ) (hb : 1 ≤ b) :
    ∀ n : ℕ, n < 2 ^ (7 * b) → (writeUvarint n).length ≤ b := by
  induction b with
  | zero => omega
  | succ b ihb =>
    intro n hn
    rw [writeUvarint]
    by_cases h : n < 128
    · simp [h]
    · simp only [h, dif_neg, not_false_iff, List.length_cons]
      have hb1 : 1 ≤ b := by
        by_contra hb0
        have : b = 0 := by omega
        subst this
        simp at hn
        omega
      have : n / 128 < 2 ^ (7 * b) := by
        apply Nat.div_lt_of_lt_mul
        calc n < 2 ^ (7 * (b + 1)) := hn
          _ = 128 * 2 ^ (7 * b) := by rw [show 7 * (b + 1) = 7 + 7 * b by ring, pow_add]; norm_num
      have := ihb hb1 (n / 128) this
      omega

/-- `writeUvarint` never produces the empty list. -/
theorem writeUvarint_ne_nil (n : ℕ) : writeUvarint n ≠ [] := by
  rw [writeUvarint]
  by_cases h : n < 128 <;> simp [h]

/-- A successful varint read consumes at least one byte. -/
theorem readVarint_okR_length (input : List ℕ) :
    ∀ k acc v rest, readVarint input k acc = .okR v rest →
      rest.length < input.length := by
  induction input with
  | nil =>
    intro k acc v rest h
    rw [readVarint.eq_def] at h
    by_cases hk : 5 ≤ k <;> simp [hk] at h
  | cons b bs ih =>
    intro k acc v rest h
    rw [readVarint.eq_def] at h
    by_cases hk : 5 ≤ k
    · simp [hk] at h
    · simp only [hk, if_false] at h
      by_cases hb : b < 128
      · simp only [hb, if_true] at h
        cases h
        simp
      · simp only [hb, if_false] at h
        have := ih _ _ _ _ h
        simp
        omega

/-- A successful `readDelimited` consumes at least one byte. -/
theorem readDelimited_ok_length {M : Type} (u : List ℕ → Option M)
    (input : List ℕ) (m : M) (rest : List ℕ)
    (h : readDelimited u input = .ok m rest) : rest.length < input.length := by
  rw [readDelimited] at h
  cases hv : readVarint input 0 0 with
  | eofR => rw [hv] at h; exact absurd h (by simp)
  | invalidR => rw [hv] at h; exact absurd h (by simp)
  | okR len rest1 =>
    rw [hv] at h
    have h1 := readVarint_okR_length input 0 0 len rest1 hv
    by_cases hc : rest1.length = 0 ∧ 0 < len
    · simp [hc] at h
    · simp only [hc, if_false] at h
      by_cases hc2 : rest1.length < len
      · simp [hc2] at h
      · simp only [hc2, if_false] at h
        cases hu : u (rest1.take len) with
        | none => rw [hu] at h; exact absurd h (by simp)
        | some m2 =>
          rw [hu] at h
          cases h
          calc (rest1.drop len).length ≤ rest1.length := by simp
            _ < input.length := h1

/-- With any sufficient fuel, `decodeFrames` agrees with
`rawDataIntoRequests`. -/
theorem decodeFrames_eq_raw {M : Type} (u : List ℕ → Option M) :
    ∀ (f : ℕ) (input : List ℕ), input.length < f →
      decodeFrames u f input = rawDataIntoRequests u input := by
  intro f
  induction f using Nat.strong_induction_on with
  | _ f ih =>
    intro input hf
    match f, hf with
    | f + 1, hf =>
      show decodeFrames u (f + 1) input = decodeFrames u (input.length + 1) input
      rw [decodeFrames, decodeFrames]
      cases h : readDelimited u input with
      | eofStop => rfl
      | fatal => rfl
      | ok m rest =>
        have hlt := readDelimited_ok_length u input m rest h
        have e1 : decodeFrames u f rest = rawDataIntoRequests u rest :=
          ih f (by omega) rest (by omega)
        have e2 : decodeFrames u input.length rest = rawDataIntoRequests u rest :=
          ih input.length (by omega) rest (by omega)
        simp only [e1, e2]

/-- `readDelimited` decodes one frame written by `writeDelimited`. -/
theorem readDelimited_writeDelimited {M : Type} (u : List ℕ → Option M)
    (mar : M → List ℕ) (m : M) (s : List ℕ)
    (hu : u (mar m) = some m) (hlen : (mar m).length < 2 ^ 35) :
    readDelimited u (writeDelimited mar m ++ s) = .ok m s := by
  rw [readDelimited, writeDelimited]
  have h5 : 0 + (writeUvarint (mar m).length).length ≤ 5 := by
    have := writeUvarint_length_le 5 (by norm_num) (mar m).length
      (by norm_num at hlen ⊢; omega)
    omega
  rw [List.append_assoc, readVarint_writeUvarint _ _ _ _ h5]
  have hval : (0 : ℕ) + (mar m).length <<< (7 * 0) = (mar m).length := by
    simp [Nat.shiftLeft_eq]
  rw [hval]
  have hc1 : ¬ ((mar m ++ s).length = 0 ∧ 0 < (mar m).length) := by
    rintro ⟨h1, h2⟩
    rw [List.length_append] at h1
    omega
  have hc2 : ¬ ((mar m ++ s).length < (mar m).length) := by
    simp [List.length_append]
  simp only [hc1, if_false, hc2, List.take_left, List.drop_left, hu]

/-- Decoding after a prepended well-formed frame. -/
theorem decodeFrames_writeDelimited {M : Type} (u : List ℕ → Option M)
    (mar : M → List ℕ) (m : M) (s : List ℕ) (f : ℕ)
    (hu : u (mar m) = some m) (hlen : (mar m).length < 2 ^ 35) :
    decodeFrames u (f + 1) (writeDelimited mar m ++ s) =
      (decodeFrames u f s).map (m :: ·) := by
  rw [decodeFrames, readDelimited_writeDelimited u mar m s hu hlen]

/-- Decoding a buffer that starts with an encoded batch: the batch's
messages are recovered in front of whatever the remainder decodes to. -/
theorem rawData_append_encode {M : Type} (u : List ℕ → Option M)
    (mar : M → List ℕ) (ms : List M) (s : List ℕ)
    (hu : ∀ m ∈ ms, u (mar m) = some m)
    (hlen : ∀ m ∈ ms, (mar m).length < 2 ^ 35) :
    rawDataIntoRequests u (requestsIntoRawData mar ms ++ s) =
      (rawDataIntoRequests u s).map (ms ++ ·) := by
  induction ms with
  | nil =>
    simp only [requestsIntoRawData, List.map_nil, List.flatten_nil, List.nil_append]
    cases h : rawDataIntoRequests u s <;> simp
  | cons m rest ih =>
    have hwd : requestsIntoRawData mar (m :: rest) =
        writeDelimited mar m ++ requestsIntoRawData mar rest := by
      simp [requestsIntoRawData]
    rw [hwd, List.append_assoc]
    have hne : 1 ≤ (writeDelimited mar m).length := by
      rw [writeDelimited]
      have := writeUvarint_ne_nil (mar m).length
      cases hw : writeUvarint (mar m).length with
      | nil => exact absurd hw this
      | cons a l => simp
    have hlen1 : (writeDelimited mar m ++ (requestsIntoRawData mar rest ++ s)).length
        = (writeDelimited mar m).length + (requestsIntoRawData mar rest ++ s).length := by
      simp
    rw [rawDataIntoRequests, hlen1]
    have hstep : (writeDelimited mar m).length + (requestsIntoRawData mar rest ++ s).length + 1
        = ((writeDelimited mar m).length + (requestsIntoRawData mar rest ++ s).length) + 1 := rfl
    rw [hstep, decodeFrames_writeDelimited u mar m _ _
      (hu m (by simp)) (hlen m (by simp))]
    rw [decodeFrames_eq_raw u _ _ (by omega)]
    rw [ih (fun x hx => hu x (by simp [hx])) (fun x hx => hlen x (by simp [hx]))]
    cases h : rawDataIntoRequests u s <;> simp

/-- Reading a varint at offset 0 from a minimally-encoded prefix. -/
theorem readVarint_writeUvarint_zero (n : ℕ) (s : List ℕ) (h : n < 2 ^ 35) :
    readVarint (writeUvarint n ++ s) 0 0 = .okR n s := by
  have h5 : 0 + (writeUvarint n).length ≤ 5 := by
    have := writeUvarint_length_le 5 (by norm_num) n (by norm_num at h ⊢; omega)
    omega
  rw [readVarint_writeUvarint n s 0 0 h5]
  congr 1
  simp [Nat.shiftLeft_eq]

/-- A truncated varint (only continuation bytes, within the 5-byte
budget) ends in `io.EOF`. -/
theorem readVarint_truncated (t : List ℕ) :
    ∀ k acc, (∀ b ∈ t, 128 ≤ b) → k + t.length ≤ 4 →
      readVarint t k acc = .eofR := by
  induction t with
  | nil =>
    intro k acc _ hk
    rw [readVarint.eq_def]
    simp at hk
    have : ¬ 5 ≤ k := by omega
    simp [this]
  | cons b bs ih =>
    intro k acc hb hk
    rw [readVarint.eq_def]
    have hk5 : ¬ 5 ≤ k := by simp at hk; omega
    have hblt : ¬ b < 128 := by
      have := hb b (by simp)
      omega
    simp only [hk5, if_false, hblt]
    exact ih (k + 1) _ (fun x hx => hb x (by simp [hx])) (by simp at hk ⊢; omega)

/-- Five continuation bytes exhaust the 5-byte header budget:
`errInvalidVarint`. -/
theorem readVarint_invalid (c : List ℕ) :
    ∀ k acc rest, (∀ b ∈ c, 128 ≤ b) → c.length + k = 5 →
      readVarint (c ++ rest) k acc = .invalidR := by
  induction c with
  | nil =>
    intro k acc rest _ hk
    rw [readVarint.eq_def]
    simp at hk
    simp [hk]
  | cons b bs ih =>
    intro k acc rest hb hk
    rw [readVarint.eq_def]
    have hk5 : ¬ 5 ≤ k := by simp at hk; omega
    have hblt : ¬ b < 128 := by
      have := hb b (by simp)
      omega
    simp only [List.cons_append, hk5, if_false, hblt]
    exact ih (k + 1) _ rest (fun x hx => hb x (by simp [hx])) (by simp at hk ⊢; omega)

/-- Decoding the empty buffer: no records, no error. -/
theorem rawDataIntoRequests_nil {M : Type} (u : List ℕ → Option M) :
    rawDataIntoRequests u [] = some [] := rfl

/-- Decoding a lone truncated varint: clean stop. -/
theorem rawDataIntoRequests_truncated_varint {M : Type} (u : List ℕ → Option M)
    (t : List ℕ) (h1 : ∀ b ∈ t, 128 ≤ b) (h2 : t.length ≤ 4) :
    rawDataIntoRequests u t = some [] := by
  rw [rawDataIntoRequests, decodeFrames, readDelimited,
    readVarint_truncated t 0 0 h1 (by omega)]

/-- A complete length prefix with no payload bytes: clean stop
(`io.ReadFull` reports `io.EOF`). -/
theorem rawDataIntoRequests_prefix_only {M : Type} (u : List ℕ → Option M)
    (len : ℕ) (hpos : 0 < len) (hlt : len < 2 ^ 35) :
    rawDataIntoRequests u (writeUvarint len) = some [] := by
  rw [rawDataIntoRequests, decodeFrames, readDelimited,
    ← List.append_nil (writeUvarint len), readVarint_writeUvarint_zero len [] hlt]
  simp [hpos]

/-- A partial payload after a complete length prefix: fatal
(`io.ErrUnexpectedEOF`). -/
theorem rawDataIntoRequests_partial_payload {M : Type} (u : List ℕ → Option M)
    (len : ℕ) (p : List ℕ) (hne : p ≠ []) (hlt : p.length < len)
    (hb : len < 2 ^ 35) :
    rawDataIntoRequests u (writeUvarint len ++ p) = none := by
  rw [rawDataIntoRequests, decodeFrames, readDelimited,
    readVarint_writeUvarint_zero len p hb]
  have h0 : ¬ (p = [] ∧ 0 < len) := by
    rintro ⟨h1, _⟩
    exact hne h1
  simp [h0, hlt]

/-- Five continuation bytes as length prefix: fatal (`errInvalidVarint`). -/
theorem rawDataIntoRequests_invalid_varint {M : Type} (u : List ℕ → Option M)
    (c : List ℕ) (hc : c.length = 5) (hb : ∀ b ∈ c, 128 ≤ b) (rest : List ℕ) :
    rawDataIntoRequests u (c ++ rest) = none := by
  rw [rawDataIntoRequests, decodeFrames, readDelimited,
    readVarint_invalid c 0 0 rest hb (by omega)]

/-- A full frame whose payload fails `proto.Unmarshal`: fatal. -/
theorem rawDataIntoRequests_bad_payload {M : Type} (u : List ℕ → Option M)
    (p : List ℕ) (hp : u p = none) (hlt : p.length < 2 ^ 35) :
    rawDataIntoRequests u (writeUvarint p.length ++ p) = none := by
  rw [rawDataIntoRequests, decodeFrames, readDelimited,
    readVarint_writeUvarint_zero p.length p hlt]
  have h0 : ¬ (p = [] ∧ 0 < p.length) := by
    rintro ⟨he, hpos⟩
    subst he
    simp at hpos
  have h1 : ¬ (p.length < p.length) := by omega
  simp [h0, h1, List.take_length, hp]

/-- C4 (amended): decoding stops cleanly (returning the records decoded
so far, no error) when the buffer ends at a record boundary, inside a
truncated length prefix, or right after a complete length prefix with no
payload byte present; but a partially present trailing payload is a
fatal error (`io.ErrUnexpectedEOF` is not `io.EOF`), as are an over-long
length prefix and a payload rejected by the inner message decoder. -/
theorem rawDataIntoRequests_truncation {M : Type} (u : List ℕ → Option M)
    (mar : M → List ℕ) (ms : List M)
    (hu : ∀ m ∈ ms, u (mar m) = some m)
    (hlen : ∀ m ∈ ms, (mar m).length < 2 ^ 35) :
    rawDataIntoRequests u (requestsIntoRawData mar ms) = some ms ∧
    (∀ t : List ℕ, t ≠ [] → t.length ≤ 4 → (∀ b ∈ t, 128 ≤ b) →
      rawDataIntoRequests u (requestsIntoRawData mar ms ++ t) = some ms) ∧
    (∀ len : ℕ, 0 < len → len < 2 ^ 35 →
      rawDataIntoRequests u (requestsIntoRawData mar ms ++ writeUvarint len) = some ms) ∧
    (∀ len : ℕ, ∀ p : List ℕ, p ≠ [] → p.length < len → len < 2 ^ 35 →
      rawDataIntoRequests u (requestsIntoRawData mar ms ++ (writeUvarint len ++ p)) = none) ∧
    (∀ c : List ℕ, c.length = 5 → (∀ b ∈ c, 128 ≤ b) → ∀ rest : List ℕ,
      rawDataIntoRequests u (requestsIntoRawData mar ms ++ (c ++ rest)) = none) ∧
    (∀ p : List ℕ, u p = none → p.length < 2 ^ 35 →
      rawDataIntoRequests u (requestsIntoRawData mar ms ++ (writeUvarint p.length ++ p)) = none) := by
  refine ⟨?_, ?_, ?_, ?_, ?_, ?_⟩
  · rw [← List.append_nil (requestsIntoRawData mar ms),
      rawData_append_encode u mar ms [] hu hlen, rawDataIntoRequests_nil]
    simp
  · intro t hne h4 hb
    rw [rawData_append_encode u mar ms t hu hlen,
      rawDataIntoRequests_truncated_varint u t hb h4]
    simp
  · intro len hpos hlt
    rw [rawData_append_encode u mar ms _ hu hlen,
      rawDataIntoRequests_prefix_only u len hpos hlt]
    simp
  · intro len p hne hlt hb
    rw [rawData_append_encode u mar ms _ hu hlen,
      rawDataIntoRequests_partial_payload u len p hne hlt hb]
    rfl
  · intro c hc hb rest
    rw [rawData_append_encode u mar ms _ hu hlen,
      rawDataIntoRequests_invalid_varint u c hc hb rest]
    rfl
  · intro p hp hlt
    rw [rawData_append_encode u mar ms _ hu hlen,
      rawDataIntoRequests_bad_payload u p hp hlt]
    rfl

/-- Counterexample to C4 as stated: the buffer `[2, 65]` — a well-formed
length prefix announcing 2 payload bytes, of which only one is present —
is a truncated trailing record, yet decoding returns a fatal error
(`none`), not the records seen so far.  (The inner decoder accepts
everything here, so the error is purely the framing layer's.) -/
theorem rawDataIntoRequests_truncated_record_error :
    rawDataIntoRequests (fun bs : List ℕ => some bs) [2, 65] = none := by decide

/-- Witness for C4: the batch `[[65]]` under the identity message codec;
the clean end decodes back, and appending the truncated varint `[200]`
still decodes cleanly to the same batch. -/
theorem rawDataIntoRequests_truncation_witness :
    rawDataIntoRequests (fun bs : List ℕ => some bs)
        (requestsIntoRawData (fun bs : List ℕ => bs) [[65]] ++ [200]) =
      some [[65]] :=
  (rawDataIntoRequests_truncation (fun bs => some bs) (fun bs => bs) [[65]]
    (by decide) (by decide)).2.1 [200] (by decide) (by decide) (by decide)

/-- C5 (amended): `decode (encode batch) = batch` for every batch of
well-formed messages; consequently `encode (decode x) = x` whenever `x`
is itself the canonical encoding of some batch.  (Byte-identity fails
for non-minimal varint framing, see the counterexample.) -/
theorem rawDataIntoRequests_roundTrip {M : Type} (u : List ℕ → Option M)
    (mar : M → List ℕ) (ms : List M)
    (hu : ∀ m ∈ ms, u (mar m) = some m)
    (hlen : ∀ m ∈ ms, (mar m).length < 2 ^ 35) :
    rawDataIntoRequests u (requestsIntoRawData mar ms) = some ms ∧
    (rawDataIntoRequests u (requestsIntoRawData mar ms)).map
        (requestsIntoRawData mar) = some (requestsIntoRawData mar ms) := by
  have h1 : rawDataIntoRequests u (requestsIntoRawData mar ms) = some ms := by
    rw [← List.append_nil (requestsIntoRawData mar ms),
      rawData_append_encode u mar ms [] hu hlen, rawDataIntoRequests_nil]
    simp
  exact ⟨h1, by rw [h1]; rfl⟩

/-- Counterexample to C5 as stated: the buffer `[128, 0]` decodes without
error (a non-minimal two-byte varint encoding of length 0, then an empty
message), but re-encoding produces the canonical `[0]` — framing is not
byte-identical for every decodable buffer. -/
theorem rawDataIntoRequests_not_byte_identical :
    (rawDataIntoRequests (fun bs : List ℕ => some bs) [128, 0]).map
        (requestsIntoRawData (fun bs : List ℕ => bs)) = some [0] ∧
    [(128 : ℕ), 0] ≠ [(0 : ℕ)] := by
  constructor
  · have h1 : rawDataIntoRequests (fun bs : List ℕ => some bs) [128, 0] =
        some [[]] := by decide
    rw [h1]
    simp [requestsIntoRawData, writeDelimited, writeUvarint]
  · decide

/-- Witness for C5: the two-message batch `[[65], []]` under the identity
message codec round-trips. -/
theorem rawDataIntoRequests_roundTrip_witness :
    rawDataIntoRequests (fun bs : List ℕ => some bs)
        (requestsIntoRawData (fun bs : List ℕ => bs) [[65], []]) =
      some [[65], []] :=
  (rawDataIntoRequests_roundTrip (fun bs => some bs) (fun bs => bs) [[65], []]
    (by decide) (by decide)).1

/-- The data-point loop produces a flatten-of-pieces gauge list and an
attribute-only rewrite of the data points. -/
theorem processSummaryDPs_spec (env : EnhanceEnv)
    (effR acc : String) (dps : List SummaryDataPoint) :
    ∀ st mName st1 gauges nm dpsNew,
      processSummaryDPs env st effR acc mName dps = .ok (st1, gauges, nm, dpsNew) →
      (∃ pieces, gauges = pieces.flatten ∧ List.Forall₂ (PieceOf env) dps pieces) ∧
      List.Forall₂
        (fun dp dpNew => dpNew = dp ∨ ∃ labels, dpNew = { dp with Attributes := labels })
        dps dpsNew := by
  induction dps with
  | nil =>
    intro st mName st1 gauges nm dpsNew h
    rw [processSummaryDPs] at h
    cases h
    exact ⟨⟨[], rfl, .nil⟩, .nil⟩
  | cons dp rest ih =>
    intro st mName st1 gauges nm dpsNew h
    rw [processSummaryDPs] at h
    cases he : enrichDataPoint env st effR acc dp with
    | error e => rw [he] at h; exact absurd h (by simp)
    | ok out =>
      rw [he] at h
      obtain ⟨st2, o⟩ := out
      cases o with
      | none =>
        simp only [Except.map] at h
        cases hr : processSummaryDPs env st2 effR acc mName rest with
        | error e => rw [hr] at h; exact absurd h (by simp [Except.map])
        | ok out2 =>
          rw [hr] at h
          simp only [Except.map] at h
          cases h
          obtain ⟨⟨pieces, hg, hp⟩, hf⟩ := ih st2 mName _ _ _ _ hr
          exact ⟨⟨[] :: pieces, by simp [hg], .cons (Or.inl rfl) hp⟩,
            .cons (Or.inl rfl) hf⟩
      | some cl =>
        obtain ⟨cwm, labels⟩ := cl
        simp only [Except.map] at h
        cases hr : processSummaryDPs env st2 effR acc
            (env.buildMetricName cwm.Namespace cwm.MetricName
              (if attrValue dp.Attributes "Statistic" = ""
               then attrValue dp.Attributes "statistic"
               else attrValue dp.Attributes "Statistic")) rest with
        | error e => rw [hr] at h; exact absurd h (by simp [Except.map])
        | ok out2 =>
          rw [hr] at h
          simp only [Except.map] at h
          cases h
          obtain ⟨⟨pieces, hg, hp⟩, hf⟩ := ih st2 _ _ _ _ _ hr
          refine ⟨⟨summaryToGauges env.buildMetricName cwm dp labels env.yaceCompatStats :: pieces,
            by simp [hg], .cons (Or.inr ⟨cwm, labels, rfl⟩) hp⟩,
            .cons (Or.inr ⟨labels, rfl⟩) hf⟩

/-- Per-metric: the compat contribution and the in-place result. -/
theorem processMetric_spec (env : EnhanceEnv) (effR acc : String)
    (m : OtlpMetric) (st st1 : EnhanceState) (contrib : List OtlpMetric)
    (mNew : OtlpMetric)
    (h : processMetric env st effR acc m = .ok (st1, contrib, mNew)) :
    ContribOf env m contrib ∧ InPlaceOf m mNew := by
  rw [processMetric] at h
  cases hd : m.Data with
  | summary dps =>
    rw [hd] at h
    dsimp only at h
    cases hr : processSummaryDPs env st effR acc m.Name dps with
    | error e => rw [hr] at h; exact absurd h (by simp [Except.map])
    | ok out =>
      rw [hr] at h
      simp only [Except.map] at h
      cases h
      obtain ⟨⟨pieces, hg, hp⟩, hf⟩ :=
        processSummaryDPs_spec env effR acc dps st m.Name _ _ _ _ hr
      exact ⟨Or.inl ⟨dps, pieces, hd, hg, hp⟩,
        Or.inr ⟨dps, _, _, hd, rfl, hf⟩⟩
  | gauge g =>
    rw [hd] at h
    dsimp only at h
    cases h
    exact ⟨Or.inr ⟨by simp [hd], rfl⟩, Or.inl ⟨by simp [hd], rfl⟩⟩
  | otherData t =>
    rw [hd] at h
    dsimp only at h
    cases h
    exact ⟨Or.inr ⟨by simp [hd], rfl⟩, Or.inl ⟨by simp [hd], rfl⟩⟩

/-- The metric loop: contributions concatenate, in-place results align. -/
theorem processMetrics_spec (env : EnhanceEnv) (effR acc : String)
    (ms : List OtlpMetric) :
    ∀ st st1 newMs inPlace,
      processMetrics env st effR acc ms = .ok (st1, newMs, inPlace) →
      (∃ contribs, newMs = contribs.flatten ∧
        List.Forall₂ (ContribOf env) ms contribs) ∧
      List.Forall₂ InPlaceOf ms inPlace := by
  induction ms with
  | nil =>
    intro st st1 newMs inPlace h
    rw [processMetrics] at h
    cases h
    exact ⟨⟨[], rfl, .nil⟩, .nil⟩
  | cons m rest ih =>
    intro st st1 newMs inPlace h
    rw [processMetrics] at h
    cases hm : processMetric env st effR acc m with
    | error e => rw [hm] at h; exact absurd h (by simp)
    | ok out =>
      rw [hm] at h
      obtain ⟨st2, contrib, mNew⟩ := out
      dsimp only at h
      cases hr : processMetrics env st2 effR acc rest with
      | error e => rw [hr] at h; exact absurd h (by simp [Except.map])
      | ok out2 =>
        rw [hr] at h
        simp only [Except.map] at h
        cases h
        obtain ⟨⟨contribs, hc, hcf⟩, hif⟩ := ih st2 _ _ _ hr
        obtain ⟨h1, h2⟩ := processMetric_spec env effR acc m st st2 contrib mNew hm
        exact ⟨⟨contrib :: contribs, by simp [hc], .cons h1 hcf⟩, .cons h2 hif⟩

/-- C9: in expansion (YACE-compat) mode a scope's metric list after
enrichment is the concatenation, metric by metric, of the gauges
produced from each summary metric's data points, with every non-summary
metric passed through unchanged; in non-expansion mode the list keeps
its length and its elements, each summary metric being rewritten only in
its name and its data points' attributes. -/
theorem enhanceScopeMetrics_modes (env : EnhanceEnv) (st : EnhanceState)
    (effR acc : String) (ms : List OtlpMetric) (st1 : EnhanceState)
    (msOut : List OtlpMetric)
    (h : enhanceScopeMetrics env st effR acc ms = .ok (st1, msOut)) :
    (env.yaceCompatMode = true →
      ∃ contribs, msOut = contribs.flatten ∧
        List.Forall₂ (ContribOf env) ms contribs) ∧
    (env.yaceCompatMode = false → List.Forall₂ InPlaceOf ms msOut) := by
  rw [enhanceScopeMetrics] at h
  cases hr : processMetrics env st effR acc ms with
  | error e => rw [hr] at h; exact absurd h (by simp [Except.map])
  | ok out =>
    rw [hr] at h
    simp only [Except.map] at h
    cases h
    obtain ⟨⟨contribs, hc, hcf⟩, hif⟩ := processMetrics_spec env effR acc ms st _ _ _ hr
    constructor
    · intro hmode
      rw [hmode]
      exact ⟨contribs, by simp [hc], hcf⟩
    · intro hmode
      rw [hmode]
      simpa using hif

/-- Witness for C9: on `msW` in compat mode the metric list becomes the
summary metric's gauges followed by the untouched non-summary metric. -/
theorem enhanceScopeMetrics_modes_witness :
    ∃ contribs,
      [newGauge "AWS/EC2_CPUUtilization_Sum" 50 1000 900 labelsW,
       ⟨"m2", .otherData 7⟩] = contribs.flatten ∧
      List.Forall₂ (ContribOf envW) msW contribs :=
  (enhanceScopeMetrics_modes envW ⟨[], [], []⟩ "us-east-1" "123456789012" msW stW1
    [newGauge "AWS/EC2_CPUUtilization_Sum" 50 1000 900 labelsW, ⟨"m2", .otherData 7⟩]
    rfl).1 rfl

/-- A present key keeps its binding after `insertNs` of a new entry. -/
theorem lookupNs_insert_of_some {α : Type} (m : List (String × α)) (k ns : String)
    (v x : α) (h : lookupNs m k = some v) :
    lookupNs (insertNs m ns x) k = some v := by
  induction m with
  | nil => simp [lookupNs] at h
  | cons p rest ih =>
    by_cases hp : p.1 = k
    · simp only [lookupNs, insertNs, List.cons_append, List.find?_cons, hp] at h ⊢
      simpa using h
    · simp only [lookupNs, insertNs, List.cons_append, List.find?_cons] at h ⊢
      rw [show (decide (p.1 = k)) = false by simp [hp]] at h ⊢
      dsimp only at h ⊢
      exact ih h

theorem cacheStep_refl (st : EnhanceState) : CacheStep st st :=
  ⟨fun _ _ h => h, [], by simp, by simp⟩

theorem cacheStep_trans {st st1 st2 : EnhanceState}
    (h1 : CacheStep st st1) (h2 : CacheStep st1 st2) : CacheStep st st2 := by
  obtain ⟨m1, l1, hl1, hn1⟩ := h1
  obtain ⟨m2, l2, hl2, hn2⟩ := h2
  refine ⟨fun ns rs h => m2 ns rs (m1 ns rs h), l1 ++ l2, by rw [hl2, hl1, List.append_assoc], ?_⟩
  intro ns hns
  rcases List.mem_append.mp hns with h | h
  · exact hn1 ns h
  · cases hx : lookupNs st.resourceCache ns with
    | none => rfl
    | some rs => exact absurd (m1 ns rs hx) (by rw [hn2 ns h]; simp)

/-- `associateAndLabel` touches only the associator cache. -/
theorem associateAndLabel_state (env : EnhanceEnv) (st : EnhanceState)
    (cwm : CWMetric) (effR acc : String) :
    (associateAndLabel env st cwm effR acc).1.resourceCache = st.resourceCache ∧
    (associateAndLabel env st cwm effR acc).1.fetchLog = st.fetchLog := by
  rw [associateAndLabel]
  cases h : lookupNs st.associatorCache cwm.Namespace <;> simp [h]

/-- One data point's enrichment satisfies the cache-step contract. -/
theorem enrichDataPoint_cacheStep (env : EnhanceEnv) (st : EnhanceState)
    (effR acc : String) (dp : SummaryDataPoint) (st1 : EnhanceState)
    (out : Option (CWMetric × List KeyValue))
    (h : enrichDataPoint env st effR acc dp = .ok (st1, out)) :
    CacheStep st st1 := by
  rw [enrichDataPoint] at h
  by_cases h0 : (buildCloudWatchMetricFromKeyValues dp.Attributes).MetricName = "" ∨
      (buildCloudWatchMetricFromKeyValues dp.Attributes).Namespace = ""
  · rw [if_pos h0] at h
    cases h
    exact cacheStep_refl st
  · rw [if_neg h0] at h
    by_cases h1 : env.supported (buildCloudWatchMetricFromKeyValues dp.Attributes).Namespace = false
    · rw [if_pos h1] at h
      cases h
      exact cacheStep_refl st
    · rw [if_neg h1] at h
      cases hl : lookupNs st.resourceCache
          (buildCloudWatchMetricFromKeyValues dp.Attributes).Namespace with
      | some rs =>
        rw [hl] at h
        dsimp only at h
        cases h
        obtain ⟨hrc, hfl⟩ := associateAndLabel_state env st
          (buildCloudWatchMetricFromKeyValues dp.Attributes) effR acc
        exact ⟨fun ns rs2 hx => by rw [hrc]; exact hx, [], by simp [hfl], by simp⟩
      | none =>
        rw [hl] at h
        dsimp only at h
        cases hg : env.getRes (buildCloudWatchMetricFromKeyValues dp.Attributes).Namespace with
        | error e =>
          rw [hg] at h
          dsimp only at h
          by_cases hc : env.continueOnResourceFailure = true
          · rw [if_pos hc] at h
            cases h
            exact ⟨fun ns rs hx => hx, [(buildCloudWatchMetricFromKeyValues dp.Attributes).Namespace],
              by simp, by simpa using hl⟩
          · rw [if_neg hc] at h
            exact absurd h (by simp)
        | ok resources =>
          rw [hg] at h
          dsimp only at h
          cases h
          have hst2 := associateAndLabel_state env
            { st with
                fetchLog := st.fetchLog ++ [(buildCloudWatchMetricFromKeyValues dp.Attributes).Namespace],
                resourceCache :=
                  (insertNs st.resourceCache
                    (buildCloudWatchMetricFromKeyValues dp.Attributes).Namespace resources) }
            (buildCloudWatchMetricFromKeyValues dp.Attributes) effR acc
          obtain ⟨hrc, hfl⟩ := hst2
          refine ⟨?_, [(buildCloudWatchMetricFromKeyValues dp.Attributes).Namespace],
            by simp [hfl], by simpa using hl⟩
          intro ns rs hx
          rw [hrc]
          exact lookupNs_insert_of_some st.resourceCache ns _ rs resources hx

/-- CacheStep through the data-point loop. -/
theorem processSummaryDPs_cacheStep (env : EnhanceEnv) (effR acc : String)
    (dps : List SummaryDataPoint) :
    ∀ st mName out, processSummaryDPs env st effR acc mName dps = .ok out →
      CacheStep st out.1 := by
  induction dps with
  | nil =>
    intro st mName out h
    rw [processSummaryDPs] at h
    cases h
    exact cacheStep_refl st
  | cons dp rest ih =>
    intro st mName out h
    rw [processSummaryDPs] at h
    cases he : enrichDataPoint env st effR acc dp with
    | error e => rw [he] at h; exact absurd h (by simp)
    | ok o =>
      rw [he] at h
      obtain ⟨st2, oo⟩ := o
      have hstep := enrichDataPoint_cacheStep env st effR acc dp st2 oo he
      cases oo with
      | none =>
        dsimp only at h
        cases hr : processSummaryDPs env st2 effR acc mName rest with
        | error e => rw [hr] at h; exact absurd h (by simp [Except.map])
        | ok out2 =>
          rw [hr] at h
          simp only [Except.map] at h
          cases h
          exact cacheStep_trans hstep (ih st2 mName out2 hr)
      | some cl =>
        obtain ⟨cwm, labels⟩ := cl
        dsimp only at h
        cases hr : processSummaryDPs env st2 effR acc
            (env.buildMetricName cwm.Namespace cwm.MetricName
              (if attrValue dp.Attributes "Statistic" = ""
               then attrValue dp.Attributes "statistic"
               else attrValue dp.Attributes "Statistic")) rest with
        | error e => rw [hr] at h; exact absurd h (by simp [Except.map])
        | ok out2 =>
          rw [hr] at h
          simp only [Except.map] at h
          cases h
          exact cacheStep_trans hstep (ih st2 _ out2 hr)

/-- CacheStep through one metric. -/
theorem processMetric_cacheStep (env : EnhanceEnv) (effR acc : String)
    (m : OtlpMetric) (st : EnhanceState) (out : EnhanceState × List OtlpMetric × OtlpMetric)
    (h : processMetric env st effR acc m = .ok out) : CacheStep st out.1 := by
  rw [processMetric] at h
  cases hd : m.Data with
  | summary dps =>
    rw [hd] at h
    dsimp only at h
    cases hr : processSummaryDPs env st effR acc m.Name dps with
    | error e => rw [hr] at h; exact absurd h (by simp [Except.map])
    | ok o =>
      rw [hr] at h
      simp only [Except.map] at h
      cases h
      exact processSummaryDPs_cacheStep env effR acc dps st m.Name o hr
  | gauge g =>
    rw [hd] at h
    dsimp only at h
    cases h
    exact cacheStep_refl st
  | otherData t =>
    rw [hd] at h
    dsimp only at h
    cases h
    exact cacheStep_refl st

/-- CacheStep through the metric loop. -/
theorem processMetrics_cacheStep (env : EnhanceEnv) (effR acc : String)
    (ms : List OtlpMetric) :
    ∀ st out, processMetrics env st effR acc ms = .ok out → CacheStep st out.1 := by
  induction ms with
  | nil =>
    intro st out h
    rw [processMetrics] at h
    cases h
    exact cacheStep_refl st
  | cons m rest ih =>
    intro st out h
    rw [processMetrics] at h
    cases hm : processMetric env st effR acc m with
    | error e => rw [hm] at h; exact absurd h (by simp)
    | ok o =>
      rw [hm] at h
      obtain ⟨st2, contrib, mNew⟩ := o
      dsimp only at h
      cases hr : processMetrics env st2 effR acc rest with
      | error e => rw [hr] at h; exact absurd h (by simp [Except.map])
      | ok out2 =>
        rw [hr] at h
        simp only [Except.map] at h
        cases h
        exact cacheStep_trans
          (processMetric_cacheStep env effR acc m st (st2, contrib, mNew) hm)
          (ih st2 out2 hr)

/-- CacheStep through one scope. -/
theorem enhanceScopeMetrics_cacheStep (env : EnhanceEnv) (st : EnhanceState)
    (effR acc : String) (ms : List OtlpMetric)
    (out : EnhanceState × List OtlpMetric)
    (h : enhanceScopeMetrics env st effR acc ms = .ok out) : CacheStep st out.1 := by
  rw [enhanceScopeMetrics] at h
  cases hr : processMetrics env st effR acc ms with
  | error e => rw [hr] at h; exact absurd h (by simp [Except.map])
  | ok o =>
    rw [hr] at h
    simp only [Except.map] at h
    cases h
    exact processMetrics_cacheStep env effR acc ms st o hr

/-- CacheStep through the scope loop. -/
theorem enhanceScopes_cacheStep (env : EnhanceEnv) (effR acc : String)
    (sms : List (List OtlpMetric)) :
    ∀ st out, enhanceScopes env effR acc st sms = .ok out → CacheStep st out.1 := by
  induction sms with
  | nil =>
    intro st out h
    rw [enhanceScopes] at h
    cases h
    exact cacheStep_refl st
  | cons sm rest ih =>
    intro st out h
    rw [enhanceScopes] at h
    cases hs : enhanceScopeMetrics env st effR acc sm with
    | error e => rw [hs] at h; exact absurd h (by simp)
    | ok o =>
      rw [hs] at h
      dsimp only at h
      cases hr : enhanceScopes env effR acc o.1 rest with
      | error e => rw [hr] at h; exact absurd h (by simp [Except.map])
      | ok out2 =>
        rw [hr] at h
        simp only [Except.map] at h
        cases h
        exact cacheStep_trans (enhanceScopeMetrics_cacheStep env st effR acc sm o hs)
          (ih o.1 out2 hr)

/-- An `Except.map` that returns `ok` comes from an `ok`. -/
theorem except_map_ok {α β ε : Type} (f : α → β) (x : Except ε α) (b : β)
    (h : x.map f = .ok b) : ∃ a, x = .ok a ∧ f a = b := by
  cases x with
  | error e => exact absurd h (by simp [Except.map])
  | ok a =>
    refine ⟨a, rfl, ?_⟩
    simp only [Except.map] at h
    cases h
    rfl

/-- CacheStep through one `ResourceMetrics`. -/
theorem enhanceResourceMetrics_cacheStep (env : EnhanceEnv)
    (region : Option String) (st : EnhanceState) (rm : ResourceMetrics)
    (out : EnhanceState × ResourceMetrics)
    (h : enhanceResourceMetrics env region st rm = .ok out) : CacheStep st out.1 := by
  rw [enhanceResourceMetrics.eq_def] at h
  dsimp only at h
  obtain ⟨o, hr, hfo⟩ := except_map_ok _ _ _ h
  have hcs := enhanceScopes_cacheStep env _ _ rm.ScopeMetrics st o hr
  rw [← hfo]
  exact hcs

/-- CacheStep through the `ResourceMetrics` loop. -/
theorem enhanceRMs_cacheStep (env : EnhanceEnv) (region : Option String)
    (rms : List ResourceMetrics) :
    ∀ st out, enhanceRMs env region st rms = .ok out → CacheStep st out.1 := by
  induction rms with
  | nil =>
    intro st out h
    rw [enhanceRMs] at h
    cases h
    exact cacheStep_refl st
  | cons rm rest ih =>
    intro st out h
    rw [enhanceRMs] at h
    cases hs : enhanceResourceMetrics env region st rm with
    | error e => rw [hs] at h; exact absurd h (by simp)
    | ok o =>
      rw [hs] at h
      dsimp only at h
      cases hr : enhanceRMs env region o.1 rest with
      | error e => rw [hr] at h; exact absurd h (by simp [Except.map])
      | ok out2 =>
        rw [hr] at h
        simp only [Except.map] at h
        cases h
        exact cacheStep_trans (enhanceResourceMetrics_cacheStep env region st rm o hs)
          (ih o.1 out2 hr)

/-- CacheStep through the full request loop. -/
theorem enhanceRequests_cacheStep (env : EnhanceEnv) (region : Option String)
    (reqs : List (List ResourceMetrics)) :
    ∀ st out, enhanceRequests env region st reqs = .ok out → CacheStep st out.1 := by
  induction reqs with
  | nil =>
    intro st out h
    rw [enhanceRequests] at h
    cases h
    exact cacheStep_refl st
  | cons req rest ih =>
    intro st out h
    rw [enhanceRequests] at h
    cases hs : enhanceRMs env region st req with
    | error e => rw [hs] at h; exact absurd h (by simp)
    | ok o =>
      rw [hs] at h
      dsimp only at h
      cases hr : enhanceRequests env region o.1 rest with
      | error e => rw [hr] at h; exact absurd h (by simp [Except.map])
      | ok out2 =>
        rw [hr] at h
        simp only [Except.map] at h
        cases h
        exact cacheStep_trans (enhanceRMs_cacheStep env region req st o hs)
          (ih o.1 out2 hr)

/-- C10: within one invocation, (i) a data point whose namespace is
already in the in-memory resource map performs no fetch and leaves the
map and the fetch log untouched; (ii) a fetch failure skipped under the
continue-on-failure policy records the fetch but writes no map entry, so
an identical later data point fetches again; (iii) composed over the
whole invocation, the resource map only gains entries and every fetched
namespace was absent from the map at the moment of its fetch — hence a
namespace once present (even with an empty resource list) is never
fetched again. -/
theorem enhanceRequests_fetch_policy (env : EnhanceEnv) :
    (∀ st effR acc dp st1 out,
      enrichDataPoint env st effR acc dp = .ok (st1, out) →
      lookupNs st.resourceCache
        (buildCloudWatchMetricFromKeyValues dp.Attributes).Namespace ≠ none →
      st1.fetchLog = st.fetchLog ∧ st1.resourceCache = st.resourceCache) ∧
    (∀ st effR acc dp,
      env.continueOnResourceFailure = true →
      ¬ (buildCloudWatchMetricFromKeyValues dp.Attributes).MetricName = "" →
      ¬ (buildCloudWatchMetricFromKeyValues dp.Attributes).Namespace = "" →
      env.supported (buildCloudWatchMetricFromKeyValues dp.Attributes).Namespace = true →
      lookupNs st.resourceCache
        (buildCloudWatchMetricFromKeyValues dp.Attributes).Namespace = none →
      env.getRes (buildCloudWatchMetricFromKeyValues dp.Attributes).Namespace = .error () →
      enrichDataPoint env st effR acc dp =
        .ok ({ st with fetchLog := st.fetchLog ++
          [(buildCloudWatchMetricFromKeyValues dp.Attributes).Namespace] }, none)) ∧
    (∀ region st reqs out,
      enhanceRequests env region st reqs = .ok out → CacheStep st out.1) := by
  refine ⟨?_, ?_, ?_⟩
  · intro st effR acc dp st1 out h hcached
    rw [enrichDataPoint] at h
    by_cases h0 : (buildCloudWatchMetricFromKeyValues dp.Attributes).MetricName = "" ∨
        (buildCloudWatchMetricFromKeyValues dp.Attributes).Namespace = ""
    · rw [if_pos h0] at h
      cases h
      exact ⟨rfl, rfl⟩
    · rw [if_neg h0] at h
      by_cases h1 : env.supported
          (buildCloudWatchMetricFromKeyValues dp.Attributes).Namespace = false
      · rw [if_pos h1] at h
        cases h
        exact ⟨rfl, rfl⟩
      · rw [if_neg h1] at h
        cases hl : lookupNs st.resourceCache
            (buildCloudWatchMetricFromKeyValues dp.Attributes).Namespace with
        | none => exact absurd hl hcached
        | some rs =>
          rw [hl] at h
          dsimp only at h
          cases h
          obtain ⟨hrc, hfl⟩ := associateAndLabel_state env st
            (buildCloudWatchMetricFromKeyValues dp.Attributes) effR acc
          exact ⟨hfl, hrc⟩
  · intro st effR acc dp hc hmn hns hsup hl hg
    rw [enrichDataPoint]
    rw [if_neg (by rw [not_or]; exact ⟨hmn, hns⟩)]
    rw [if_neg (by rw [hsup]; simp)]
    rw [hl]
    dsimp only
    rw [hg]
    dsimp only
    rw [if_pos hc]
  · intro region st reqs out h
    exact enhanceRequests_cacheStep env region reqs st out h

/-- Witness for C10: from the empty state, enriching `dpW2` under
`envW3` logs the failed fetch for `AWS/EC2` and writes no resource-map
entry, skipping the data point. -/
theorem enhanceRequests_fetch_policy_witness :
    enrichDataPoint envW3 ⟨[], [], []⟩ "us-east-1" "123456789012" dpW2 =
      .ok (⟨[], [], ["AWS/EC2"]⟩, none) :=
  (enhanceRequests_fetch_policy envW3).2.1 ⟨[], [], []⟩ "us-east-1" "123456789012" dpW2
    rfl (by decide) (by decide) rfl rfl rfl

end CWEnrich
